import Mathlib

/-!
# Verification of the RelayPlane SDK workflow core

A shallow embedding of the workflow builder, topological scheduler, step
dispatcher, result assembler and configuration resolution of the RelayPlane
SDK (`src/v3-builder.ts`, `src/v3-config.js`, `src/adapters/executor.ts`),
with theorems settling the spec's claims about them.

JavaScript values flowing through step outputs are modelled by `Value`, a
small algebra with JS truthiness.  JS `Record<string, any>` objects are
modelled by association lists with overwrite-on-assign semantics
(`recordSet`).  External collaborators (the AI adapter, the MCP tool
executor, the engine's per-step adapter executor) are modelled as function
parameters, so the theorems quantify over every collaborator behaviour.
-/

/-- A JavaScript value, as far as the workflow core inspects one:
`null`/`undefined` (collapsed to `vNull`), booleans, numbers and strings.
Enough to express JS truthiness, which the result converter relies on. -/
inductive Value where
  | vNull
  | vBool (b : Bool)
  | vNum (n : Int)
  | vStr (s : String)
deriving DecidableEq, Repr

/-- JS truthiness of a `Value`: `null`, `false`, `0` and `""` are falsy. -/
def truthy : Value → Bool
  | .vNull => false
  | .vBool b => b
  | .vNum n => n != 0
  | .vStr s => s != ""

/-- Truthiness of a possibly-absent value (JS `undefined` is falsy). -/
def truthyOpt : Option Value → Bool
  | none => false
  | some v => truthy v

/-- Truthiness of a possibly-absent string (JS `undefined` and `""` falsy). -/
def truthyStr : Option String → Bool
  | none => false
  | some s => s != ""

/-- JS `String.prototype.split` with a single-character separator: cut the
string at every occurrence of the separator (empty string gives `[""]`,
trailing separator gives a trailing empty part). -/
def jsSplit (c : Char) (s : String) : List String :=
  (s.data.foldr
    (fun ch (acc : List (List Char)) =>
      match acc with
      | [] => if ch = c then [[], []] else [[ch]]
      | cur :: rest => if ch = c then [] :: cur :: rest else (ch :: cur) :: rest)
    [[]]).map (fun l => String.mk l)

/-- JS `String.prototype.toUpperCase` on ASCII. -/
def toUpperString (s : String) : String :=
  String.mk (s.data.map Char.toUpper)

/-- Retry configuration of a step (`StepConfig.retry` in `v3-types.ts`). -/
structure RetryConfig where
  maxRetries : Nat
  backoffMs : Option Nat := none
deriving DecidableEq, Repr

/-- Configuration bag of a step (`StepConfig` in `v3-types.ts`).  The open
`[key: string]: any` extension and `tools` are not inspected by the core and
are omitted. -/
structure StepConfig where
  schema : Option Value := none
  systemPrompt : Option String := none
  userPrompt : Option String := none
  metadata : List (String × Value) := []
  retry : Option RetryConfig := none
deriving DecidableEq, Repr

/-- Step kind: AI model step or MCP tool step (`'ai' | 'mcp'`). -/
inductive StepType where
  | ai
  | mcp
deriving DecidableEq, Repr

/-- One node of a workflow graph (`StepDefinition` in `v3-types.ts`). -/
structure StepDefinition where
  name : String
  type : StepType
  model : Option String := none
  mcpTool : Option String := none
  mcpParams : List (String × Value) := []
  config : Option StepConfig := none
  dependsOn : List String := []
deriving DecidableEq, Repr

/-- A JS `Record<string, Value>`: association list whose keys are unique,
maintained by `recordSet`'s overwrite-on-assign. -/
abbrev JSRecord := List (String × Value)

/-- JS `obj[k] = v`: overwrite the existing entry in place, else append. -/
def recordSet (m : JSRecord) (k : String) (v : Value) : JSRecord :=
  if m.any (fun p => p.1 == k) then
    m.map (fun p => if p.1 == k then (k, v) else p)
  else
    m ++ [(k, v)]

/-- JS `obj[k]`: the stored value, or `none` for `undefined`. -/
def recordGet (m : JSRecord) (k : String) : Option Value :=
  (m.find? (fun p => p.1 == k)).map (fun p => p.2)

/-- The keys of a record, in insertion order. -/
def recordKeys (m : JSRecord) : List String :=
  m.map (fun p => p.1)

section TopologicalSort

/-!
## The topological scheduler (`WorkflowBuilderImpl.topologicalSort`)

The source is a depth-first traversal over an array of steps with two string
sets `visited` and `visiting`; recursion depth is bounded at runtime by the
`visiting` set, which the embedding makes explicit with a fuel parameter
(`fuelExhausted` is an artifact of the embedding and is proved unreachable
for the fuel `topologicalSortG` supplies).  The traversal is generic in how
a node exposes its name and dependency list, so the same definition serves
the builder's sort (over `StepDefinition`) and the engine's scheduling (over
its own step shape).
-/

variable {α : Type}

/-- Errors thrown by the sort: the two `throw new Error(...)` sites of the
source, plus the embedding-only fuel marker. -/
inductive TSError where
  | circular (stepName : String)
  | notFound (stepName : String)
  | fuelExhausted
deriving DecidableEq, Repr

/-- The message carried by the thrown `Error`. -/
def TSError.message : TSError → String
  | .circular stepName => s!"Circular dependency detected involving step: {stepName}"
  | .notFound stepName => s!"Step {stepName} not found"
  | .fuelExhausted => "fuel exhausted"

/-- The mutable state of the traversal: the output array `sorted` and the
two marking sets, kept as lists (only membership is ever queried, and the
guards keep them duplicate-free). -/
structure TSState (α : Type) where
  sorted : List α
  visited : List String
  visiting : List String

/-- The body of the source's `for (const dep of step.dependsOn) visit(dep)`
loop, parameterized by the visitor for one name (the recursion on the fuel
lives in `visit`; this walk is structural on the dependency list). -/
def visitList (f : String → TSState α → Except TSError (TSState α)) :
    List String → TSState α → Except TSError (TSState α)
  | [], st => .ok st
  | d :: ds, st =>
    match f d st with
    | .error e => .error e
    | .ok st' => visitList f ds st'

/-- The source's inner `visit(stepName)` closure: return if done, throw on an
in-progress revisit, look the step up by name, visit its dependencies, then
unmark and append the step. -/
def visit (nm : α → String) (dp : α → List String) (steps : List α) :
    Nat → String → TSState α → Except TSError (TSState α)
  | 0, _, _ => .error .fuelExhausted
  | fuel + 1, stepName, st =>
    if stepName ∈ st.visited then .ok st
    else if stepName ∈ st.visiting then .error (.circular stepName)
    else
      match steps.find? (fun s => nm s == stepName) with
      | none => .error (.notFound stepName)
      | some step =>
        match visitList (visit nm dp steps fuel) (dp step)
            { st with visiting := st.visiting ++ [stepName] } with
        | .error e => .error e
        | .ok st2 =>
          .ok { sorted := st2.sorted ++ [step],
                visited := st2.visited ++ [stepName],
                visiting := st2.visiting.erase stepName }

/-- The dependency walk of `visit` at a given fuel. -/
def visitDeps (nm : α → String) (dp : α → List String) (steps : List α)
    (fuel : Nat) : List String → TSState α → Except TSError (TSState α) :=
  visitList (visit nm dp steps fuel)

/-- The source's outer `for (const step of this.steps) visit(step.name)`. -/
def visitAll (nm : α → String) (dp : α → List String) (steps : List α)
    (fuel : Nat) (todo : List α) (st : TSState α) :
    Except TSError (TSState α) :=
  match todo with
  | [] => .ok st
  | s :: rest =>
    match visit nm dp steps fuel (nm s) st with
    | .error e => .error e
    | .ok st' => visitAll nm dp steps fuel rest st'

/-- `topologicalSort`, generic over the node shape.  `steps.length + 1` fuel
is proved sufficient for every top-level call below. -/
def topologicalSortG (nm : α → String) (dp : α → List String)
    (steps : List α) : Except TSError (List α) :=
  match visitAll nm dp steps (steps.length + 1) steps ⟨[], [], []⟩ with
  | .error e => .error e
  | .ok st => .ok st.sorted

/-- `WorkflowBuilderImpl.topologicalSort`: the sort over the builder's
accumulated `StepDefinition` list. -/
def topologicalSort (steps : List StepDefinition) :
    Except TSError (List StepDefinition) :=
  topologicalSortG (fun s => s.name) (fun s => s.dependsOn) steps

/-! ### The dependency graph induced by a step list

`this.steps.find(s => s.name === stepName)` resolves names to steps, so the
graph the traversal walks resolves each name through `find?` (the first step
with that name, which is the unique one when names are duplicate-free). -/

/-- Resolve a step name the way the source's `visit` does. -/
def lookupStep (nm : α → String) (steps : List α) (n : String) : Option α :=
  steps.find? (fun s => nm s == n)

/-- `DirectDep nm dp steps d n`: the step named `n` lists `d` in its
dependency list, i.e. the traversal of `n` visits `d`. -/
def DirectDep (nm : α → String) (dp : α → List String) (steps : List α)
    (d n : String) : Prop :=
  ∃ s, lookupStep nm steps n = some s ∧ d ∈ dp s

/-- The step list has no dependency cycle: no name transitively depends on
itself. -/
def Acyclic (nm : α → String) (dp : α → List String) (steps : List α) : Prop :=
  ∀ n, ¬ Relation.TransGen (DirectDep nm dp steps) n n

/-- Every dependency entry names a step of the list. -/
def DepsClosed (nm : α → String) (dp : α → List String) (steps : List α) : Prop :=
  ∀ s ∈ steps, ∀ d ∈ dp s, d ∈ steps.map nm

/-- `orderedFrom nm dp seen l`: walking `l` left to right, every element's
dependency names occur in `seen` or among the names of earlier elements of
`l`.  `orderedFrom nm dp [] order` is the scheduler's postcondition. -/
def orderedFrom (nm : α → String) (dp : α → List String) :
    List String → List α → Prop
  | _, [] => True
  | seen, x :: rest =>
    (∀ d ∈ dp x, d ∈ seen) ∧ orderedFrom nm dp (seen ++ [nm x]) rest

/-- The invariant the traversal maintains on its state: the output list is
dependency-ordered, its name set coincides with `visited`, names are pushed
at most once, every pushed step is the `find?`-resolution of its own name,
and nothing in progress is already done. -/
structure SortInv (nm : α → String) (dp : α → List String) (steps : List α)
    (st : TSState α) : Prop where
  ordered : orderedFrom nm dp [] st.sorted
  vis_sub : ∀ n ∈ st.visited, n ∈ st.sorted.map nm
  sub_vis : ∀ n ∈ st.sorted.map nm, n ∈ st.visited
  vis_nodup : st.visited.Nodup
  lookup_sorted : ∀ t ∈ st.sorted, lookupStep nm steps (nm t) = some t
  sorted_names_nodup : (st.sorted.map nm).Nodup
  disj : ∀ v ∈ st.visiting, v ∉ st.visited

/-- How one successful traversal call moves the state: output and done set
grow by appending, the in-progress set is restored. -/
structure VisitStep (st st' : TSState α) : Prop where
  sorted_prefix : st.sorted <+: st'.sorted
  visited_prefix : st.visited <+: st'.visited
  visiting_eq : st'.visiting = st.visiting

end TopologicalSort

section ConfigResolution

/-!
## Configuration and credential resolution (`src/v3-config.js`)

`process.env` is modelled as a partial map from variable names to strings; a
set-but-empty variable is JS-falsy and is skipped by the resolution, exactly
as in the source.  The global configuration singleton is passed explicitly.
-/

/-- `ProviderConfig` from `v3-types.ts`: the per-provider credential record.
`apiKey` is a required string in the source's type. -/
structure ProviderConfig where
  apiKey : String
  baseUrl : Option String := none
  organization : Option String := none
deriving DecidableEq, Repr

/-- `PROVIDER_ENV_VARS`: the conventional environment variable of each
known provider. -/
def PROVIDER_ENV_VARS : String → Option String := fun p =>
  if p = "openai" then some "OPENAI_API_KEY"
  else if p = "anthropic" then some "ANTHROPIC_API_KEY"
  else if p = "google" then some "GOOGLE_API_KEY"
  else if p = "xai" then some "XAI_API_KEY"
  else if p = "groq" then some "GROQ_API_KEY"
  else if p = "together" then some "TOGETHER_API_KEY"
  else if p = "replicate" then some "REPLICATE_API_KEY"
  else none

/-- The provider table of the global configuration singleton (the part of
`globalConfig` the credential resolution reads). -/
structure GlobalConfigModel where
  providers : String → Option ProviderConfig := fun _ => none

/-- `process.env`. -/
abbrev Env := String → Option String

/-- `RunOptions` from `v3-types.ts`, restricted to the fields the local
execution path could consult: per-run provider overrides, the abort signal
(`signalAborted` models `signal.aborted`), and the timeout. -/
structure RunOptions where
  providers : String → Option ProviderConfig := fun _ => none
  signalAborted : Bool := false
  timeout : Option Nat := none

/-- `resolveProviderConfig`: three-tier resolution — per-run override, then
global configuration, then conventional environment variable (whose value
must be truthy, i.e. a nonempty string). -/
def resolveProviderConfig (cfg : GlobalConfigModel) (env : Env)
    (provider : String) (runOptions : Option RunOptions) : Option ProviderConfig :=
  match runOptions.bind (fun o => o.providers provider) with
  | some c => some c
  | none =>
    match cfg.providers provider with
    | some c => some c
    | none =>
      match PROVIDER_ENV_VARS provider with
      | some envVarName =>
        match env envVarName with
        | some v => if v ≠ "" then some { apiKey := v } else none
        | none => none
      | none => none

/-- `isProviderConfigured`: resolution succeeded with a nonempty key. -/
def isProviderConfigured (cfg : GlobalConfigModel) (env : Env)
    (provider : String) (runOptions : Option RunOptions) : Bool :=
  match resolveProviderConfig cfg env provider runOptions with
  | none => false
  | some c => c.apiKey != ""

/-- The `PROVIDER_ENV_VARS[p] || p.toUpperCase() + '_API_KEY'` fallback used
in the validation error message. -/
def envVarFallback (p : String) : String :=
  match PROVIDER_ENV_VARS p with
  | some v => v
  | none => toUpperString p ++ "_API_KEY"

/-- `validateProvidersConfigured`: collect the unconfigured providers and
throw the configuration error naming them and their environment variables. -/
def validateProvidersConfigured (providers : List String)
    (cfg : GlobalConfigModel) (env : Env) (runOptions : Option RunOptions) :
    Except String Unit :=
  let missing := providers.filter (fun p => !isProviderConfigured cfg env p runOptions)
  if missing.isEmpty then .ok ()
  else
    .error ("Missing API keys for providers: " ++ String.intercalate ", " missing ++
      ". Please set environment variables (" ++
      String.intercalate ", " (missing.map envVarFallback) ++
      ") or configure via relay.configure().")

end ConfigResolution

section Dispatcher

/-!
## Target parsing, prompt assembly and provider extraction
(`WorkflowBuilderImpl.parseModel` / `parseMCPTool` / `buildPrompt` /
`extractProviders` in `v3-builder.ts`)
-/

/-- `parseModel`: split a `provider:model-id` target at `:`; anything other
than exactly two parts is a validation error. -/
def parseModel (model : String) : Except String (String × String) :=
  match jsSplit ':' model with
  | [p, m] => .ok (p, m)
  | _ => .error s!"Invalid model format: \"{model}\". Expected \"provider:model-id\" (e.g., \"openai:gpt-4o\")"

/-- `parseMCPTool`: split a `server:tool` target at `:`. -/
def parseMCPTool (tool : String) : Except String (String × String) :=
  match jsSplit ':' tool with
  | [s, t] => .ok (s, t)
  | _ => .error s!"Invalid MCP tool format: \"{tool}\". Expected \"server:tool\" (e.g., \"crm:search\")"

/-- `buildPrompt`: combine system and user prompt when both are truthy,
otherwise `systemPrompt || userPrompt`. -/
def buildPrompt (config : Option StepConfig) : Option String :=
  match config with
  | none => none
  | some c =>
    if truthyStr c.systemPrompt && truthyStr c.userPrompt then
      some ((c.systemPrompt.getD "") ++ "\n\n" ++ (c.userPrompt.getD ""))
    else if truthyStr c.systemPrompt then c.systemPrompt
    else c.userPrompt

/-- `extractProviders`: the provider components of the AI steps' targets, in
first-occurrence order (the source accumulates them in a `Set`).  A step
with a falsy `model` is skipped; a malformed target throws. -/
def extractProviders : List StepDefinition → List String → Except String (List String)
  | [], acc => .ok acc
  | s :: rest, acc =>
    if s.type == .ai && truthyStr s.model then
      match parseModel (s.model.getD "") with
      | .error e => .error e
      | .ok (provider, _) =>
        extractProviders rest (if provider ∈ acc then acc else acc ++ [provider])
    else extractProviders rest acc

/-!
## The adapter executor's credential gate
(`KEYLESS_PROVIDERS` / `SDKAdapterExecutor.execute` in
`src/adapters/executor.ts`)

Only the configuration check that decides between failing and dispatching to
the provider adapter is embedded; the adapter call itself is an external
collaborator.
-/

/-- Providers that don't require an API key (local LLMs). -/
def KEYLESS_PROVIDERS : List String := ["local"]

/-- Outcome of the executor's configuration check for a provider. -/
inductive GateResult where
  | failed (errorType : String) (errorMessage : String)
  | dispatch
deriving DecidableEq, Repr

/-- The `execute` credential gate: keyless providers always dispatch; other
providers fail with a `ValidationError` when no configuration or an empty
API key was supplied. -/
def executeConfigGate (provider : String)
    (configs : String → Option ProviderConfig) : GateResult :=
  let isKeylessProvider := provider ∈ KEYLESS_PROVIDERS
  if ¬ isKeylessProvider then
    match configs provider with
    | none => .failed "ValidationError" s!"No configuration provided for provider: {provider}"
    | some config =>
      if config.apiKey = "" then
        .failed "ValidationError" s!"No API key provided for provider: {provider}"
      else .dispatch
  else .dispatch

/-!
## The step dispatcher (`WorkflowBuilderImpl.runWithMCP` / `run`)

`executeAIStep` and `executeMCPStep` wrap external collaborators (a
single-step engine run and the MCP executor); each is abstracted as a
function from the step and the accumulated step outputs to either a thrown
error message or an output value.  The dispatch trace returned alongside
each result records, in order, the names of the steps whose executor was
invoked — it is the instrumentation for the "no step is dispatched"
claims. -/

/-- The two per-step executors of the MCP path, as collaborator behaviour. -/
structure Collaborators where
  aiExec : StepDefinition → JSRecord → Except String Value
  mcpExec : StepDefinition → JSRecord → Except String Value

/-- The error object of the public `WorkflowResult`. -/
structure WorkflowError where
  message : String
  type : Option String := none
  stepName : Option String := none
deriving DecidableEq, Repr

/-- The public `WorkflowResult` (metadata timestamps are wall-clock and not
modelled). -/
structure WorkflowResult where
  success : Bool
  steps : JSRecord
  finalOutput : Option Value := none
  error : Option WorkflowError := none
deriving DecidableEq, Repr

/-- One step of the MCP path's `for (const step of sortedSteps)` loop body:
route by step type to the matching executor. -/
def execStep (col : Collaborators) (step : StepDefinition) (outs : JSRecord) :
    Except String Value :=
  match step.type with
  | .ai => col.aiExec step outs
  | .mcp => col.mcpExec step outs

/-- The MCP path's execution loop: on the first executor failure stop with
the failing step's name and message and the outputs accumulated so far;
otherwise record each output under the step's name.  Also returns the
dispatch trace. -/
def runWithMCPLoop (col : Collaborators) :
    List StepDefinition → JSRecord →
    Option (String × String) × JSRecord × List String
  | [], outs => (none, outs, [])
  | step :: rest, outs =>
    match execStep col step outs with
    | .error msg => (some (msg, step.name), outs, [step.name])
    | .ok v =>
      let r := runWithMCPLoop col rest (recordSet outs step.name v)
      (r.1, r.2.1, step.name :: r.2.2)

/-- `WorkflowBuilderImpl.runWithMCP`: topologically sort, then run the loop.
A sort failure is a thrown exception (`Except.error`) escaping to `run()`'s
catch block; a step failure is returned as a failed `WorkflowResult` with
the failing step's name. -/
def runWithMCPModel (steps : List StepDefinition) (col : Collaborators) :
    Except TSError WorkflowResult × List String :=
  match topologicalSort steps with
  | .error e => (.error e, [])
  | .ok sorted =>
    match runWithMCPLoop col sorted [] with
    | (some (msg, sname), outs, tr) =>
      (.ok { success := false, steps := outs,
             error := some { message := msg, stepName := some sname } }, tr)
    | (none, outs, tr) =>
      (.ok { success := true, steps := outs,
             finalOutput :=
               match sorted.getLast? with
               | some lastStep => recordGet outs lastStep.name
               | none => none }, tr)

end Dispatcher

section PureAIPath

/-!
## The pure-AI execution path (`run` without MCP steps)

The source hands the converted step list to `runWorkflow` of
`@relayplane/engine`, a package that is not part of this repository; only
its behaviour as described by the spec (§4.2–§4.4: topological order via
the same three-colour DFS, strictly sequential dispatch through the adapter
executor, stop at the first failure, per-step execution logs, final output
of the last step) is available, so the engine is modelled from the spec
below.  The result conversion back into the public shape
(`WorkflowBuilderImpl.convertResult`) is embedded from the source.
-/

/-- `WorkflowStep`, the engine-facing step record the source builds from a
`StepDefinition` (`run`, lines 143–160): model and provider split from the
target, assembled prompt, schema, dependencies. -/
structure EngineStep where
  stepName : String
  model : String
  prompt : Option String := none
  schema : Option Value := none
  dependsOn : List String := []
  provider : String
deriving DecidableEq, Repr

/-- The engine's per-step execution log (`StepExecutionLog`), as read by
`convertResult` and the telemetry client: name, success flag, optional
output, optional error. -/
structure StepExecutionLog where
  stepName : String
  success : Bool
  output : Option Value := none
  errorType : Option String := none
  errorMessage : Option String := none
deriving DecidableEq, Repr

/-- The engine's run result (`WorkflowRunResult`), as read by
`convertResult`. -/
structure WorkflowRunResult where
  success : Bool
  steps : List StepExecutionLog
  finalOutput : Option Value := none
deriving DecidableEq, Repr

/-- What the engine's adapter executor reports for one step. -/
structure AdapterResult where
  success : Bool
  output : Option Value := none
  errorType : Option String := none
  errorMessage : Option String := none
deriving DecidableEq, Repr

/-- The engine's adapter executor collaborator: a function of the step and
the outputs accumulated so far. -/
abbrev AdapterExecutor := EngineStep → JSRecord → AdapterResult

/-- Modelled from the spec: the engine's sequential dispatch loop (§4.3) —
steps run one at a time in scheduler order, each success is recorded into
the shared output map and logged, and the first failure stops the run with
a failure log carrying the error, not an output (the repository's adapter
executor never returns an `output` on a failed call).  Returns the logs,
the outputs, the success flag and the dispatch trace. -/
def engineRunSteps (exec : AdapterExecutor) :
    List EngineStep → JSRecord →
    List StepExecutionLog × JSRecord × Bool × List String
  | [], outs => ([], outs, true, [])
  | s :: rest, outs =>
    let r := exec s outs
    if r.success then
      let rec' := engineRunSteps exec rest
        (recordSet outs s.stepName (r.output.getD .vNull))
      ({ stepName := s.stepName, success := true, output := r.output } :: rec'.1,
       rec'.2.1, rec'.2.2.1, s.stepName :: rec'.2.2.2)
    else
      ([{ stepName := s.stepName, success := false,
          errorType := r.errorType, errorMessage := r.errorMessage }],
       outs, false, [s.stepName])

/-- Modelled from the spec: `runWorkflow` of `@relayplane/engine` — order
the steps with the three-colour DFS scheduler (§4.2, the same algorithm as
the builder's sort), fail fast on a graph-validity error, otherwise run the
dispatch loop; on success the final output is the last step's output
(§4.4). -/
def runWorkflowEngine (wsteps : List EngineStep) (exec : AdapterExecutor) :
    Except TSError WorkflowRunResult × List String :=
  match topologicalSortG (fun s => s.stepName) (fun s => s.dependsOn) wsteps with
  | .error e => (.error e, [])
  | .ok sorted =>
    let r := engineRunSteps exec sorted []
    (.ok { success := r.2.2.1, steps := r.1,
           finalOutput :=
             if r.2.2.1 then r.1.getLast?.bind (fun log => log.output)
             else none }, r.2.2.2)

/-- The output-extraction loop of `convertResult`
(`for (const stepLog of engineResult.steps) if (stepLog.output) ...`): a log
is recorded only when its output is truthy. -/
def convertOutputsFold (logs : List StepExecutionLog) (outs : JSRecord) : JSRecord :=
  logs.foldl
    (fun outs stepLog =>
      if truthyOpt stepLog.output then
        recordSet outs stepLog.stepName (stepLog.output.getD .vNull)
      else outs) outs

/-- `WorkflowBuilderImpl.convertResult`: project the engine result into the
public shape.  A step log enters `steps` only when its `output` is truthy;
the error block is reconstructed from the first failed log, with a generic
fallback when that log's message is falsy. -/
def convertResult (engineResult : WorkflowRunResult) : WorkflowResult :=
  let stepOutputs := convertOutputsFold engineResult.steps []
  let failedStep := engineResult.steps.find? (fun log => !log.success)
  { success := engineResult.success,
    steps := stepOutputs,
    finalOutput := engineResult.finalOutput,
    error :=
      if engineResult.success then none
      else
        some { message :=
                 match failedStep with
                 | some log =>
                   match log.errorMessage with
                   | some m => if m = "" then "Workflow execution failed" else m
                   | none => "Workflow execution failed"
                 | none => "Workflow execution failed",
               type := failedStep.bind (fun log => log.errorType),
               stepName := failedStep.map (fun log => log.stepName) } }

/-- The step conversion of `run` (lines 143–160), for one AI step: split the
target, build the prompt, carry schema and dependencies.  A missing `model`
is the JS `undefined.split` crash. -/
def toWorkflowStep (s : StepDefinition) : Except String EngineStep :=
  match s.model with
  | none => .error "TypeError: Cannot read properties of undefined (reading 'split')"
  | some m =>
    match parseModel m with
    | .error e => .error e
    | .ok (provider, model) =>
      .ok { stepName := s.name, model := model, prompt := buildPrompt s.config,
            schema := s.config.bind (fun c => c.schema),
            dependsOn := s.dependsOn, provider := provider }

/-- `steps.filter(ai).map(toWorkflowStep)`, with the first thrown error
propagating. -/
def convertSteps : List StepDefinition → Except String (List EngineStep)
  | [] => .ok []
  | s :: rest =>
    match toWorkflowStep s with
    | .error e => .error e
    | .ok ws =>
      match convertSteps rest with
      | .error e => .error e
      | .ok rest' => .ok (ws :: rest')

/-- The pure-AI branch of `run` (no MCP steps): extract providers, validate
their credentials, convert the AI steps, run the (spec-modelled) engine and
convert its result.  `Except.error` is an exception propagating to `run`'s
catch block. -/
def runPureModel (steps : List StepDefinition) (cfg : GlobalConfigModel)
    (env : Env) (opts : Option RunOptions) (exec : AdapterExecutor) :
    Except String WorkflowResult × List String :=
  match extractProviders steps [] with
  | .error e => (.error e, [])
  | .ok providers =>
    match validateProvidersConfigured providers cfg env opts with
    | .error e => (.error e, [])
    | .ok _ =>
      match convertSteps (steps.filter (fun s => s.type == .ai)) with
      | .error e => (.error e, [])
      | .ok wsteps =>
        match runWorkflowEngine wsteps exec with
        | (.error e, tr) => (.error e.message, tr)
        | (.ok engineResult, tr) => (.ok (convertResult engineResult), tr)

/-- Does the workflow contain MCP steps (`run`, line 129)? -/
def hasMCPSteps (steps : List StepDefinition) : Bool :=
  steps.any (fun s => s.type == .mcp)

/-- `run`'s catch block: an exception thrown outside step execution becomes
a failed result with the exception's message, empty steps and no step
name. -/
def catchResult (r : Except String WorkflowResult) : WorkflowResult :=
  match r with
  | .ok result => result
  | .error msg => { success := false, steps := [], error := some { message := msg } }

/-- `WorkflowBuilderImpl.run`: route to the MCP path when any MCP step is
present, otherwise the pure-AI path; recover thrown exceptions into a
failed result.  Note that neither path ever reads `opts.signalAborted` or
`opts.timeout` (the source forwards `timeout` to the engine and drops
`signal`). -/
def runModel (steps : List StepDefinition) (cfg : GlobalConfigModel)
    (env : Env) (opts : Option RunOptions) (col : Collaborators)
    (exec : AdapterExecutor) : WorkflowResult × List String :=
  if hasMCPSteps steps then
    let r := runWithMCPModel steps col
    (catchResult (r.1.mapError TSError.message), r.2)
  else
    let r := runPureModel steps cfg env opts exec
    (catchResult r.1, r.2)

end PureAIPath

section BuilderChain

/-!
## The fluent builder chain (`WorkflowBuilderImpl` / `StepWithImpl` /
`StepWithModelImpl` / `StepMCPImpl` / `StepMCPWithParamsImpl`)

The source threads a JS array of `StepDefinition` *objects* through the
builder classes; `[...]` copies the array but not the objects, so two
builder values can alias the same step object.  The embedding makes the
object heap explicit: `StepStore` is the heap of step objects, a builder
value holds a list of references (heap indices) into it, and every builder
operation maps `(store, builder)` to `(store', result)`.  An operation that
mutates a step object in place (`prompt`, `depends`) shows up as a store
update at an index that older builder values still reference.
-/

/-- The heap of `StepDefinition` objects; an index is an object reference. -/
abbrev StepStore := List StepDefinition

/-- A `WorkflowBuilderImpl` value: the workflow name and `this.steps` as a
list of references (cloud features are not modelled). -/
structure BuilderState where
  workflowName : String
  stepRefs : List Nat
deriving DecidableEq, Repr

/-- A `StepWithImpl` value (after `.step()`, awaiting `.with()`/`.mcp()`). -/
structure StepWithState where
  prev : BuilderState
  stepName : String
  stepConfig : Option StepConfig
deriving DecidableEq, Repr

/-- A `StepMCPImpl` value (after `.mcp()`, awaiting `.params()`). -/
structure StepMCPState where
  prev : BuilderState
  stepName : String
  stepConfig : Option StepConfig
  tool : String
deriving DecidableEq, Repr

/-- `createWorkflow`. -/
def createWorkflow (name : String) : BuilderState :=
  { workflowName := name, stepRefs := [] }

/-- `WorkflowBuilderImpl.step`: capture name and config; no store change. -/
def BuilderState.step (b : BuilderState) (name : String)
    (config : Option StepConfig := none) : StepWithState :=
  { prev := b, stepName := name, stepConfig := config }

/-- `StepWithImpl.with`: allocate the AI step object and return a builder
whose reference list is a fresh array sharing the old references. -/
def StepWithState.withModel (store : StepStore) (sw : StepWithState)
    (model : String) : StepStore × BuilderState :=
  (store ++ [{ name := sw.stepName, type := .ai, model := some model,
               config := sw.stepConfig, dependsOn := [] }],
   { workflowName := sw.prev.workflowName,
     stepRefs := sw.prev.stepRefs ++ [store.length] })

/-- `StepWithImpl.mcp`: capture the tool; no store change. -/
def StepWithState.mcp (sw : StepWithState) (tool : String) : StepMCPState :=
  { prev := sw.prev, stepName := sw.stepName, stepConfig := sw.stepConfig,
    tool := tool }

/-- `StepMCPImpl.params`: allocate the MCP step object. -/
def StepMCPState.params (store : StepStore) (sm : StepMCPState)
    (params : List (String × Value)) : StepStore × BuilderState :=
  (store ++ [{ name := sm.stepName, type := .mcp, mcpTool := some sm.tool,
               mcpParams := params, config := sm.stepConfig, dependsOn := [] }],
   { workflowName := sm.prev.workflowName,
     stepRefs := sm.prev.stepRefs ++ [store.length] })

/-- Replace the object at reference `i` by `f` of it (JS in-place property
assignment on a heap object). -/
def storeUpdate (store : StepStore) (i : Nat)
    (f : StepDefinition → StepDefinition) : StepStore :=
  match store.get? i with
  | some s => store.set i (f s)
  | none => store

/-- `lastStep.config = { ...lastStep.config, systemPrompt: promptText }`. -/
def setPromptConfig (promptText : String) (s : StepDefinition) : StepDefinition :=
  { s with config := some { s.config.getD {} with systemPrompt := some promptText } }

/-- `StepWithModelImpl.prompt`: copy the reference array (`[...this.steps]`),
mutate the last step object in place, return a new builder over the copied
references. -/
def promptStepWithModel (store : StepStore) (b : BuilderState)
    (promptText : String) : StepStore × BuilderState :=
  match b.stepRefs.getLast? with
  | some i => (storeUpdate store i (setPromptConfig promptText),
               { workflowName := b.workflowName, stepRefs := b.stepRefs })
  | none => (store, { workflowName := b.workflowName, stepRefs := b.stepRefs })

/-- `StepWithModelImpl.depends` / `StepMCPWithParamsImpl.depends`:
`lastStep.dependsOn = deps`, in place on the shared last step object. -/
def dependsStepWithModel (store : StepStore) (b : BuilderState)
    (deps : List String) : StepStore × BuilderState :=
  match b.stepRefs.getLast? with
  | some i => (storeUpdate store i (fun s => { s with dependsOn := deps }),
               { workflowName := b.workflowName, stepRefs := b.stepRefs })
  | none => (store, { workflowName := b.workflowName, stepRefs := b.stepRefs })

/-- `WorkflowBuilderImpl.prompt`: mutate the last step object in place and
return `this` (the same builder value). -/
def promptBuilder (store : StepStore) (b : BuilderState)
    (promptText : String) : StepStore × BuilderState :=
  match b.stepRefs.getLast? with
  | some i => (storeUpdate store i (setPromptConfig promptText), b)
  | none => (store, b)

/-- The logical step list a builder value reaches through its references. -/
def stepsOf (store : StepStore) (b : BuilderState) : List StepDefinition :=
  b.stepRefs.filterMap (fun i => store.get? i)

end BuilderChain

section RunAnalysisHelpers

/-!
## Analysis helpers for the execution loops

Closed forms of the state the two dispatch loops accumulate over a prefix
of steps that all succeed, plus the decidable "this prefix runs clean"
predicates the theorems hypothesise. -/

/-- The step outputs after dispatching the steps of `l` in order, starting
from `outs` (each success recorded under the step's name). -/
def mcpOutsFrom (col : Collaborators) (outs : JSRecord)
    (l : List StepDefinition) : JSRecord :=
  l.foldl
    (fun outs step =>
      match execStep col step outs with
      | .ok v => recordSet outs step.name v
      | .error _ => outs) outs

/-- Every step of `l`, dispatched in order from `outs`, succeeds. -/
def mcpAllOk (col : Collaborators) : JSRecord → List StepDefinition → Bool
  | _, [] => true
  | outs, step :: rest =>
    match execStep col step outs with
    | .error _ => false
    | .ok v => mcpAllOk col (recordSet outs step.name v) rest

/-- The engine-path analogue of `mcpOutsFrom`: outputs recorded by the
engine loop over `l` from `outs`. -/
def engineOutsFrom (exec : AdapterExecutor) (outs : JSRecord)
    (l : List EngineStep) : JSRecord :=
  l.foldl
    (fun outs s =>
      let r := exec s outs
      if r.success then recordSet outs s.stepName (r.output.getD .vNull)
      else outs) outs

/-- Every engine step of `l`, executed in order from `outs`, succeeds. -/
def engineAllOk (exec : AdapterExecutor) : JSRecord → List EngineStep → Bool
  | _, [] => true
  | outs, s :: rest =>
    let r := exec s outs
    if r.success then
      engineAllOk exec (recordSet outs s.stepName (r.output.getD .vNull)) rest
    else false

/-- The logs the engine loop produces over an all-succeeding prefix. -/
def engineLogsFrom (exec : AdapterExecutor) :
    JSRecord → List EngineStep → List StepExecutionLog
  | _, [] => []
  | outs, s :: rest =>
    let r := exec s outs
    { stepName := s.stepName, success := true, output := r.output } ::
      engineLogsFrom exec (recordSet outs s.stepName (r.output.getD .vNull)) rest

end RunAnalysisHelpers

section ConcreteInputs

/-- A two-step MCP workflow: step "b" depends on "a" and its tool call
fails while "a" succeeds. -/
def exSA : StepDefinition := { name := "a", type := .mcp, mcpTool := some "s:ta" }

def exSB : StepDefinition :=
  { name := "b", type := .mcp, mcpTool := some "s:tb", dependsOn := ["a"] }

def exCol : Collaborators :=
  { aiExec := fun _ _ => .ok .vNull,
    mcpExec := fun s _ => if s.name = "a" then .ok (.vStr "va") else .error "tool boom" }

/-- A two-step pure-AI workflow: step "b" depends on "a" and its adapter
call fails; "a" succeeds with a truthy output. -/
def exAA : StepDefinition := { name := "a", type := .ai, model := some "openai:gpt-4o" }

def exAB : StepDefinition :=
  { name := "b", type := .ai, model := some "openai:gpt-4o", dependsOn := ["a"] }

def exEA : EngineStep := { stepName := "a", model := "gpt-4o", provider := "openai" }

def exEB : EngineStep :=
  { stepName := "b", model := "gpt-4o", dependsOn := ["a"], provider := "openai" }

def exCfg : GlobalConfigModel :=
  { providers := fun p => if p = "openai" then some { apiKey := "k" } else none }

def exExec : AdapterExecutor := fun s _ =>
  if s.stepName = "a" then { success := true, output := some (.vStr "va") }
  else { success := false, errorType := some "E", errorMessage := some "boom" }

/-- An adapter whose every call succeeds with the empty string — a truthy
run whose logged outputs are all falsy. -/
def exExecEmpty : AdapterExecutor := fun _ _ =>
  { success := true, output := some (.vStr "") }

end ConcreteInputs

section TopologicalSortTheorems

variable {α : Type}

/-! ### Unfolding equations for the traversal -/

theorem visit_zero (nm : α → String) (dp : α → List String) (steps : List α)
    (stepName : String) (st : TSState α) :
    visit nm dp steps 0 stepName st = .error .fuelExhausted := rfl

theorem visit_succ (nm : α → String) (dp : α → List String) (steps : List α)
    (fuel : Nat) (stepName : String) (st : TSState α) :
    visit nm dp steps (fuel + 1) stepName st =
      (if stepName ∈ st.visited then .ok st
       else if stepName ∈ st.visiting then .error (.circular stepName)
       else
         match steps.find? (fun s => nm s == stepName) with
         | none => .error (.notFound stepName)
         | some step =>
           match visitDeps nm dp steps fuel (dp step)
               { st with visiting := st.visiting ++ [stepName] } with
           | .error e => .error e
           | .ok st2 =>
             .ok { sorted := st2.sorted ++ [step],
                   visited := st2.visited ++ [stepName],
                   visiting := st2.visiting.erase stepName }) := rfl

theorem visitDeps_nil (nm : α → String) (dp : α → List String) (steps : List α)
    (fuel : Nat) (st : TSState α) :
    visitDeps nm dp steps fuel [] st = .ok st := rfl

theorem visitDeps_cons (nm : α → String) (dp : α → List String) (steps : List α)
    (fuel : Nat) (d : String) (ds : List String) (st : TSState α) :
    visitDeps nm dp steps fuel (d :: ds) st =
      (match visit nm dp steps fuel d st with
       | .error e => .error e
       | .ok st' => visitDeps nm dp steps fuel ds st') := rfl

/-! ### Soundness invariant of the traversal -/

theorem VisitStep.refl (st : TSState α) : VisitStep st st :=
  ⟨List.prefix_refl _, List.prefix_refl _, rfl⟩

theorem VisitStep.trans {s1 s2 s3 : TSState α}
    (h1 : VisitStep s1 s2) (h2 : VisitStep s2 s3) : VisitStep s1 s3 :=
  ⟨h1.sorted_prefix.trans h2.sorted_prefix,
   h1.visited_prefix.trans h2.visited_prefix,
   h2.visiting_eq.trans h1.visiting_eq⟩

/-- Appending a step whose dependencies are all already named keeps the
output dependency-ordered. -/
theorem orderedFrom_append (nm : α → String) (dp : α → List String)
    {l : List α} {x : α} :
    ∀ {seen : List String}, orderedFrom nm dp seen l →
    (∀ d ∈ dp x, d ∈ seen ++ l.map nm) → orderedFrom nm dp seen (l ++ [x]) := by
  induction l with
  | nil =>
    intro seen _ hx
    refine ⟨fun d hd => ?_, trivial⟩
    simpa using hx d hd
  | cons y rest ih =>
    intro seen h hx
    refine ⟨h.1, ih h.2 fun d hd => ?_⟩
    have := hx d hd
    simp only [List.map_cons, List.mem_append, List.mem_cons] at this ⊢
    tauto

/-- The central soundness lemma, proved by induction on the fuel with a
nested induction on the dependency list: every successful call preserves
`SortInv`, only grows the state (`VisitStep`), and marks its argument
visited. -/
theorem visit_sound (nm : α → String) (dp : α → List String) (steps : List α) :
    ∀ fuel : Nat,
    (∀ stepName st st', visit nm dp steps fuel stepName st = .ok st' →
      SortInv nm dp steps st →
      SortInv nm dp steps st' ∧ VisitStep st st' ∧ stepName ∈ st'.visited) ∧
    (∀ deps st st', visitDeps nm dp steps fuel deps st = .ok st' →
      SortInv nm dp steps st →
      SortInv nm dp steps st' ∧ VisitStep st st' ∧ ∀ d ∈ deps, d ∈ st'.visited) := by
  intro fuel
  induction fuel with
  | zero =>
    constructor
    · intro stepName st st' h _
      rw [visit_zero] at h
      exact absurd h (by simp)
    · intro deps st st' h hinv
      cases deps with
      | nil =>
        rw [visitDeps_nil] at h
        cases h
        exact ⟨hinv, VisitStep.refl st, by simp⟩
      | cons d ds =>
        rw [visitDeps_cons, visit_zero] at h
        exact absurd h (by simp)
  | succ fuel ih =>
    have hv : ∀ stepName st st', visit nm dp steps (fuel + 1) stepName st = .ok st' →
        SortInv nm dp steps st →
        SortInv nm dp steps st' ∧ VisitStep st st' ∧ stepName ∈ st'.visited := by
      intro stepName st st' h hinv
      rw [visit_succ] at h
      by_cases hvisited : stepName ∈ st.visited
      · simp only [hvisited, if_true] at h
        cases h
        exact ⟨hinv, VisitStep.refl st, hvisited⟩
      · simp only [hvisited, if_false] at h
        by_cases hvisiting : stepName ∈ st.visiting
        · simp [hvisiting] at h
        · simp only [hvisiting, if_false] at h
          cases hfind : steps.find? (fun s => nm s == stepName) with
          | none => simp only [hfind] at h; exact absurd h (by simp)
          | some step =>
            simp only [hfind] at h
            have hname : nm step = stepName := by
              have := List.find?_some hfind
              simpa using this
            have hmem : step ∈ steps := List.mem_of_find?_eq_some hfind
            set st1 : TSState α := { st with visiting := st.visiting ++ [stepName] } with hst1
            cases hdeps : visitDeps nm dp steps fuel (dp step) st1 with
            | error e => rw [hdeps] at h; exact absurd h (by simp)
            | ok st2 =>
              rw [hdeps] at h
              have hinv1 : SortInv nm dp steps st1 := by
                refine ⟨hinv.ordered, hinv.vis_sub, hinv.sub_vis, hinv.vis_nodup,
                  hinv.lookup_sorted, hinv.sorted_names_nodup, ?_⟩
                intro v hvmem
                simp only [hst1, List.mem_append, List.mem_singleton] at hvmem
                rcases hvmem with hvmem | rfl
                · exact hinv.disj v hvmem
                · exact hvisited
              obtain ⟨hinv2, hstep2, hdeps2⟩ := (ih.2) (dp step) st1 st2 hdeps hinv1
              have hnot2 : stepName ∉ st2.visited := by
                have : stepName ∈ st2.visiting := by
                  rw [hstep2.visiting_eq]
                  simp [hst1]
                exact hinv2.disj stepName this
              have hvisq : st2.visiting.erase stepName = st.visiting := by
                rw [hstep2.visiting_eq]
                simp only [hst1]
                rw [List.erase_append_right _ hvisiting, List.erase_cons_head]
                simp
              have hsub12 : st.visited ⊆ st2.visited := by
                have : st1.visited <+: st2.visited := hstep2.visited_prefix
                simpa [hst1] using this.subset
              -- the new state
              cases h
              constructor
              · -- SortInv of the pushed state
                refine ⟨?_, ?_, ?_, ?_, ?_, ?_, ?_⟩
                · exact orderedFrom_append nm dp hinv2.ordered fun d hd => by
                    simpa using hinv2.vis_sub d (hdeps2 d hd)
                · intro n hn
                  simp only [List.mem_append, List.mem_singleton] at hn
                  rcases hn with hn | rfl
                  · have := hinv2.vis_sub n hn
                    simp only [List.map_append, List.mem_append]
                    exact Or.inl this
                  · simp [hname]
                · intro n hn
                  simp only [List.map_append, List.map_cons, List.map_nil,
                    List.mem_append, List.mem_singleton, List.mem_cons] at hn
                  rcases hn with hn | hn
                  · exact List.mem_append.mpr (Or.inl (hinv2.sub_vis n hn))
                  · rcases hn with hn | hfalse
                    · simp [hn, hname]
                    · cases hfalse
                · simpa [List.nodup_append] using ⟨hinv2.vis_nodup, hnot2⟩
                · intro t ht
                  simp only [List.mem_append, List.mem_singleton] at ht
                  rcases ht with ht | rfl
                  · exact hinv2.lookup_sorted t ht
                  · rw [hname]
                    exact hfind
                · have hns : stepName ∉ st2.sorted.map nm := fun hc =>
                    hnot2 (hinv2.sub_vis stepName hc)
                  rw [List.map_append]
                  refine List.nodup_append.mpr ⟨hinv2.sorted_names_nodup, by simp, ?_⟩
                  intro x hx
                  simp only [List.map_cons, List.map_nil, List.mem_singleton, hname]
                  intro hc
                  subst hc
                  exact hns hx
                · intro v hvmem
                  rw [hvisq] at hvmem
                  intro hc
                  simp only [List.mem_append, List.mem_singleton] at hc
                  rcases hc with hc | rfl
                  · exact hinv2.disj v (by rw [hstep2.visiting_eq]; simp [hst1, hvmem]) hc
                  · exact hvisiting hvmem
              · constructor
                · -- VisitStep
                  refine ⟨?_, ?_, ?_⟩
                  · exact (hstep2.sorted_prefix.trans (List.prefix_append _ _))
                  · calc st.visited <+: st2.visited := by
                          have := hstep2.visited_prefix
                          simpa [hst1] using this
                      _ <+: st2.visited ++ [stepName] := List.prefix_append _ _
                  · exact hvisq
                · simp
    refine ⟨hv, ?_⟩
    intro deps
    induction deps with
    | nil =>
      intro st st' h hinv
      rw [visitDeps_nil] at h
      cases h
      exact ⟨hinv, VisitStep.refl st, by simp⟩
    | cons d ds ihd =>
      intro st st' h hinv
      rw [visitDeps_cons] at h
      cases hd : visit nm dp steps (fuel + 1) d st with
      | error e => rw [hd] at h; exact absurd h (by simp)
      | ok stm =>
        rw [hd] at h
        obtain ⟨hinvm, hstepm, hdm⟩ := hv d st stm hd hinv
        obtain ⟨hinv', hstep', hds'⟩ := ihd stm st' h hinvm
        refine ⟨hinv', hstepm.trans hstep', ?_⟩
        intro x hx
        simp only [List.mem_cons] at hx
        rcases hx with rfl | hx
        · exact hstep'.visited_prefix.subset hdm
        · exact hds' x hx

/-- Soundness of the outer loop over the declared steps. -/
theorem visitAll_sound (nm : α → String) (dp : α → List String) (steps : List α)
    (fuel : Nat) :
    ∀ todo st st', visitAll nm dp steps fuel todo st = .ok st' →
      SortInv nm dp steps st →
      SortInv nm dp steps st' ∧ VisitStep st st' ∧ ∀ s ∈ todo, nm s ∈ st'.visited := by
  intro todo
  induction todo with
  | nil =>
    intro st st' h hinv
    simp only [visitAll] at h
    cases h
    exact ⟨hinv, VisitStep.refl st, by simp⟩
  | cons s rest ih =>
    intro st st' h hinv
    simp only [visitAll] at h
    cases hs : visit nm dp steps fuel (nm s) st with
    | error e => rw [hs] at h; exact absurd h (by simp)
    | ok stm =>
      rw [hs] at h
      obtain ⟨hinvm, hstepm, hvm⟩ := (visit_sound nm dp steps fuel).1 (nm s) st stm hs hinv
      obtain ⟨hinv', hstep', hrest'⟩ := ih stm st' h hinvm
      refine ⟨hinv', hstepm.trans hstep', ?_⟩
      intro x hx
      rcases List.mem_cons.mp hx with rfl | hx
      · exact hstep'.visited_prefix.subset hvm
      · exact hrest' x hx

/-- The empty traversal state satisfies the invariant. -/
theorem SortInv.init (nm : α → String) (dp : α → List String) (steps : List α) :
    SortInv nm dp steps ⟨[], [], []⟩ := by
  refine ⟨trivial, ?_, ?_, ?_, ?_, ?_, ?_⟩ <;> simp

/-- Everything a successful sort guarantees about its output: the order is
dependency-sound, output names are duplicate-free, each output entry is the
resolution of its own name, and every declared step's name occurs. -/
theorem sortG_ok {nm : α → String} {dp : α → List String} {steps order : List α}
    (h : topologicalSortG nm dp steps = .ok order) :
    orderedFrom nm dp [] order ∧ (order.map nm).Nodup ∧
    (∀ t ∈ order, lookupStep nm steps (nm t) = some t) ∧
    (∀ s ∈ steps, nm s ∈ order.map nm) := by
  unfold topologicalSortG at h
  cases hall : visitAll nm dp steps (steps.length + 1) steps ⟨[], [], []⟩ with
  | error e => rw [hall] at h; exact absurd h (by simp)
  | ok st =>
    rw [hall] at h
    cases h
    obtain ⟨hinv, _, hnames⟩ :=
      visitAll_sound nm dp steps (steps.length + 1) steps ⟨[], [], []⟩ st hall
        (SortInv.init nm dp steps)
    exact ⟨hinv.ordered, hinv.sorted_names_nodup, hinv.lookup_sorted,
      fun s hs => hinv.vis_sub (nm s) (hnames s hs)⟩

/-- Every entry of a successful sort's output is one of the declared steps. -/
theorem sortG_ok_subset {nm : α → String} {dp : α → List String}
    {steps order : List α} (h : topologicalSortG nm dp steps = .ok order) :
    ∀ t ∈ order, t ∈ steps := by
  intro t ht
  exact List.mem_of_find?_eq_some ((sortG_ok h).2.2.1 t ht)

/-- A duplicate-free list of in-progress names drawn from the step names is
no longer than the step list. -/
theorem visiting_length_le {l names : List String}
    (h : l.Nodup) (hsub : ∀ v ∈ l, v ∈ names) : l.length ≤ names.length :=
  (h.subperm fun _ hv => hsub _ hv).length_le

/-- A name that occurs among the step names is found by the traversal's
lookup. -/
theorem find?_name_mem {nm : α → String} {steps : List α} {name : String}
    (h : name ∈ steps.map nm) :
    ∃ s, steps.find? (fun s => nm s == name) = some s := by
  cases hf : steps.find? (fun s => nm s == name) with
  | some s => exact ⟨s, rfl⟩
  | none =>
    rw [List.find?_eq_none] at hf
    obtain ⟨s, hs, rfl⟩ := List.mem_map.mp h
    have := hf s hs
    simp at this

/-- On an acyclic graph with closed dependencies, every traversal call with
adequate fuel succeeds.  The in-progress stack always consists of distinct
declared names that all transitively depend on the name being visited, so
the cycle branch is unreachable and the stack bounds the recursion depth. -/
theorem visit_success (nm : α → String) (dp : α → List String) (steps : List α)
    (hclosed : DepsClosed nm dp steps) (hacyc : Acyclic nm dp steps) :
    ∀ fuel : Nat,
    (∀ name st, name ∈ steps.map nm → SortInv nm dp steps st →
      st.visiting.Nodup → (∀ v ∈ st.visiting, v ∈ steps.map nm) →
      (∀ v ∈ st.visiting, Relation.TransGen (DirectDep nm dp steps) name v) →
      steps.length + 1 ≤ fuel + st.visiting.length →
      ∃ st', visit nm dp steps fuel name st = .ok st') ∧
    (∀ deps st, (∀ d ∈ deps, d ∈ steps.map nm) → SortInv nm dp steps st →
      st.visiting.Nodup → (∀ v ∈ st.visiting, v ∈ steps.map nm) →
      (∀ d ∈ deps, ∀ v ∈ st.visiting, Relation.TransGen (DirectDep nm dp steps) d v) →
      steps.length + 1 ≤ fuel + st.visiting.length →
      ∃ st', visitDeps nm dp steps fuel deps st = .ok st') := by
  intro fuel
  induction fuel with
  | zero =>
    have hbound : ∀ st : TSState α, st.visiting.Nodup →
        (∀ v ∈ st.visiting, v ∈ steps.map nm) →
        steps.length + 1 ≤ 0 + st.visiting.length → False := by
      intro st hnd hsub hle
      have := visiting_length_le hnd hsub
      rw [List.length_map] at this
      omega
    constructor
    · intro name st _ _ hnd hsub _ hle
      exact absurd hle (fun hle => hbound st hnd hsub hle)
    · intro deps st _ _ hnd hsub _ hle
      exact absurd hle (fun hle => hbound st hnd hsub hle)
  | succ fuel ih =>
    have hv : ∀ name st, name ∈ steps.map nm → SortInv nm dp steps st →
        st.visiting.Nodup → (∀ v ∈ st.visiting, v ∈ steps.map nm) →
        (∀ v ∈ st.visiting, Relation.TransGen (DirectDep nm dp steps) name v) →
        steps.length + 1 ≤ (fuel + 1) + st.visiting.length →
        ∃ st', visit nm dp steps (fuel + 1) name st = .ok st' := by
      intro name st hname hinv hnd hsub htg hfuel
      by_cases h1 : name ∈ st.visited
      · exact ⟨st, by rw [visit_succ]; simp [h1]⟩
      · by_cases h2 : name ∈ st.visiting
        · exact absurd (htg name h2) (hacyc name)
        · obtain ⟨step, hfind⟩ := find?_name_mem hname
          have hmem := List.mem_of_find?_eq_some hfind
          have hnm : nm step = name := by simpa using List.find?_some hfind
          set st1 : TSState α := { st with visiting := st.visiting ++ [name] } with hst1
          have hinv1 : SortInv nm dp steps st1 := by
            refine ⟨hinv.ordered, hinv.vis_sub, hinv.sub_vis, hinv.vis_nodup,
              hinv.lookup_sorted, hinv.sorted_names_nodup, ?_⟩
            intro v hvmem
            simp only [hst1, List.mem_append, List.mem_singleton] at hvmem
            rcases hvmem with hvmem | rfl
            · exact hinv.disj v hvmem
            · exact h1
          have hdd : ∀ d ∈ dp step, DirectDep nm dp steps d name :=
            fun d hd => ⟨step, hfind, hd⟩
          obtain ⟨st2, h2'⟩ := ih.2 (dp step) st1
            (fun d hd => hclosed step hmem d hd) hinv1
            (by simp [hst1, List.nodup_append, h2, hnd])
            (by
              intro v hvmem
              simp only [hst1, List.mem_append, List.mem_singleton] at hvmem
              rcases hvmem with hvmem | rfl
              · exact hsub v hvmem
              · exact hname)
            (by
              intro d hd v hvmem
              simp only [hst1, List.mem_append, List.mem_singleton] at hvmem
              rcases hvmem with hvmem | rfl
              · exact Relation.TransGen.trans
                  (Relation.TransGen.single (hdd d hd)) (htg v hvmem)
              · exact Relation.TransGen.single (hdd d hd))
            (by simp only [hst1, List.length_append, List.length_singleton]; omega)
          refine ⟨{ sorted := st2.sorted ++ [step],
                    visited := st2.visited ++ [name],
                    visiting := st2.visiting.erase name }, ?_⟩
          rw [visit_succ]
          simp only [if_neg h1, if_neg h2, hfind, h2']
    refine ⟨hv, ?_⟩
    intro deps
    induction deps with
    | nil =>
      intro st _ _ _ _ _ _
      exact ⟨st, by rw [visitDeps_nil]⟩
    | cons d ds ihd =>
      intro st hdeps hinv hnd hsub htg hfuel
      obtain ⟨stm, hm⟩ := hv d st (hdeps d (by simp)) hinv hnd hsub
        (fun v hv' => htg d (by simp) v hv') hfuel
      obtain ⟨hinvm, hstepm, _⟩ :=
        (visit_sound nm dp steps (fuel + 1)).1 d st stm hm hinv
      obtain ⟨st', h'⟩ := ihd stm
        (fun x hx => hdeps x (by simp [hx])) hinvm
        (by rw [hstepm.visiting_eq]; exact hnd)
        (by rw [hstepm.visiting_eq]; exact hsub)
        (by
          intro x hx v hv'
          rw [hstepm.visiting_eq] at hv'
          exact htg x (by simp [hx]) v hv')
        (by rw [hstepm.visiting_eq]; exact hfuel)
      exact ⟨st', by rw [visitDeps_cons, hm]; exact h'⟩

/-- On an acyclic graph with closed dependencies the sort succeeds. -/
theorem sortG_success {nm : α → String} {dp : α → List String} {steps : List α}
    (hclosed : DepsClosed nm dp steps) (hacyc : Acyclic nm dp steps) :
    ∃ order, topologicalSortG nm dp steps = .ok order := by
  suffices h : ∀ todo, (∀ s ∈ todo, s ∈ steps) →
      ∀ st, SortInv nm dp steps st → st.visiting = [] →
      ∃ st', visitAll nm dp steps (steps.length + 1) todo st = .ok st' by
    obtain ⟨st', hst'⟩ := h steps (fun _ hs => hs) ⟨[], [], []⟩
      (SortInv.init nm dp steps) rfl
    exact ⟨st'.sorted, by unfold topologicalSortG; rw [hst']⟩
  intro todo
  induction todo with
  | nil => exact fun _ st _ _ => ⟨st, by simp [visitAll]⟩
  | cons s rest ih =>
    intro hsub st hinv hempty
    obtain ⟨stm, hm⟩ := (visit_success nm dp steps hclosed hacyc (steps.length + 1)).1
      (nm s) st (List.mem_map_of_mem nm (hsub s (by simp))) hinv
      (by simp [hempty]) (by simp [hempty]) (by simp [hempty])
      (by simp [hempty])
    obtain ⟨hinvm, hstepm, _⟩ :=
      (visit_sound nm dp steps (steps.length + 1)).1 (nm s) st stm hm hinv
    obtain ⟨st', h'⟩ := ih (fun x hx => hsub x (by simp [hx])) stm hinvm
      (by rw [hstepm.visiting_eq]; exact hempty)
    exact ⟨st', by simp only [visitAll]; rw [hm]; exact h'⟩

/-- On a graph with closed dependencies (cyclic or not), a traversal call
with adequate fuel either succeeds or throws the circular-dependency error:
the not-found and fuel branches are unreachable. -/
theorem visit_nofail (nm : α → String) (dp : α → List String) (steps : List α)
    (hclosed : DepsClosed nm dp steps) :
    ∀ fuel : Nat,
    (∀ name st, name ∈ steps.map nm → SortInv nm dp steps st →
      st.visiting.Nodup → (∀ v ∈ st.visiting, v ∈ steps.map nm) →
      steps.length + 1 ≤ fuel + st.visiting.length →
      (∃ st', visit nm dp steps fuel name st = .ok st') ∨
      (∃ c, visit nm dp steps fuel name st = .error (.circular c))) ∧
    (∀ deps st, (∀ d ∈ deps, d ∈ steps.map nm) → SortInv nm dp steps st →
      st.visiting.Nodup → (∀ v ∈ st.visiting, v ∈ steps.map nm) →
      steps.length + 1 ≤ fuel + st.visiting.length →
      (∃ st', visitDeps nm dp steps fuel deps st = .ok st') ∨
      (∃ c, visitDeps nm dp steps fuel deps st = .error (.circular c))) := by
  intro fuel
  induction fuel with
  | zero =>
    have hbound : ∀ st : TSState α, st.visiting.Nodup →
        (∀ v ∈ st.visiting, v ∈ steps.map nm) →
        steps.length + 1 ≤ 0 + st.visiting.length → False := by
      intro st hnd hsub hle
      have := visiting_length_le hnd hsub
      rw [List.length_map] at this
      omega
    constructor
    · intro name st _ _ hnd hsub hle
      exact absurd hle (fun hle => hbound st hnd hsub hle)
    · intro deps st _ _ hnd hsub hle
      exact absurd hle (fun hle => hbound st hnd hsub hle)
  | succ fuel ih =>
    have hv : ∀ name st, name ∈ steps.map nm → SortInv nm dp steps st →
        st.visiting.Nodup → (∀ v ∈ st.visiting, v ∈ steps.map nm) →
        steps.length + 1 ≤ (fuel + 1) + st.visiting.length →
        (∃ st', visit nm dp steps (fuel + 1) name st = .ok st') ∨
        (∃ c, visit nm dp steps (fuel + 1) name st = .error (.circular c)) := by
      intro name st hname hinv hnd hsub hfuel
      by_cases h1 : name ∈ st.visited
      · exact Or.inl ⟨st, by rw [visit_succ]; simp [h1]⟩
      · by_cases h2 : name ∈ st.visiting
        · exact Or.inr ⟨name, by rw [visit_succ]; simp [h1, h2]⟩
        · obtain ⟨step, hfind⟩ := find?_name_mem hname
          have hmem := List.mem_of_find?_eq_some hfind
          set st1 : TSState α := { st with visiting := st.visiting ++ [name] } with hst1
          have hinv1 : SortInv nm dp steps st1 := by
            refine ⟨hinv.ordered, hinv.vis_sub, hinv.sub_vis, hinv.vis_nodup,
              hinv.lookup_sorted, hinv.sorted_names_nodup, ?_⟩
            intro v hvmem
            simp only [hst1, List.mem_append, List.mem_singleton] at hvmem
            rcases hvmem with hvmem | rfl
            · exact hinv.disj v hvmem
            · exact h1
          rcases ih.2 (dp step) st1
            (fun d hd => hclosed step hmem d hd) hinv1
            (by simp [hst1, List.nodup_append, h2, hnd])
            (by
              intro v hvmem
              simp only [hst1, List.mem_append, List.mem_singleton] at hvmem
              rcases hvmem with hvmem | rfl
              · exact hsub v hvmem
              · exact hname)
            (by simp only [hst1, List.length_append, List.length_singleton]; omega)
            with hok | hcirc
          · obtain ⟨st2, h2'⟩ := hok
            refine Or.inl ⟨{ sorted := st2.sorted ++ [step],
                             visited := st2.visited ++ [name],
                             visiting := st2.visiting.erase name }, ?_⟩
            rw [visit_succ]
            simp only [if_neg h1, if_neg h2, hfind, h2']
          · obtain ⟨c, h2'⟩ := hcirc
            refine Or.inr ⟨c, ?_⟩
            rw [visit_succ]
            simp only [if_neg h1, if_neg h2, hfind, h2']
    refine ⟨hv, ?_⟩
    intro deps
    induction deps with
    | nil =>
      intro st _ _ _ _ _
      exact Or.inl ⟨st, by rw [visitDeps_nil]⟩
    | cons d ds ihd =>
      intro st hdeps hinv hnd hsub hfuel
      rcases hv d st (hdeps d (by simp)) hinv hnd hsub hfuel with hok | hcirc
      · obtain ⟨stm, hm⟩ := hok
        obtain ⟨hinvm, hstepm, _⟩ :=
          (visit_sound nm dp steps (fuel + 1)).1 d st stm hm hinv
        rcases ihd stm (fun x hx => hdeps x (by simp [hx])) hinvm
          (by rw [hstepm.visiting_eq]; exact hnd)
          (by rw [hstepm.visiting_eq]; exact hsub)
          (by rw [hstepm.visiting_eq]; exact hfuel) with hok' | hcirc'
        · obtain ⟨st', h'⟩ := hok'
          exact Or.inl ⟨st', by rw [visitDeps_cons, hm]; exact h'⟩
        · obtain ⟨c, h'⟩ := hcirc'
          exact Or.inr ⟨c, by rw [visitDeps_cons, hm]; exact h'⟩
      · obtain ⟨c, hm⟩ := hcirc
        exact Or.inr ⟨c, by rw [visitDeps_cons, hm]⟩

/-- On a graph with closed dependencies, the sort either succeeds or throws
the circular-dependency error. -/
theorem sortG_closed {nm : α → String} {dp : α → List String} {steps : List α}
    (hclosed : DepsClosed nm dp steps) :
    (∃ order, topologicalSortG nm dp steps = .ok order) ∨
    (∃ c, topologicalSortG nm dp steps = .error (.circular c)) := by
  suffices h : ∀ todo, (∀ s ∈ todo, s ∈ steps) →
      ∀ st, SortInv nm dp steps st → st.visiting = [] →
      (∃ st', visitAll nm dp steps (steps.length + 1) todo st = .ok st') ∨
      (∃ c, visitAll nm dp steps (steps.length + 1) todo st = .error (.circular c)) by
    rcases h steps (fun _ hs => hs) ⟨[], [], []⟩ (SortInv.init nm dp steps) rfl
      with ⟨st', hst'⟩ | ⟨c, hc⟩
    · exact Or.inl ⟨st'.sorted, by unfold topologicalSortG; rw [hst']⟩
    · exact Or.inr ⟨c, by unfold topologicalSortG; rw [hc]⟩
  intro todo
  induction todo with
  | nil => exact fun _ st _ _ => Or.inl ⟨st, by simp [visitAll]⟩
  | cons s rest ih =>
    intro hsub st hinv hempty
    rcases (visit_nofail nm dp steps hclosed (steps.length + 1)).1
      (nm s) st (List.mem_map_of_mem nm (hsub s (by simp))) hinv
      (by simp [hempty]) (by simp [hempty]) (by simp [hempty]) with hok | hcirc
    · obtain ⟨stm, hm⟩ := hok
      obtain ⟨hinvm, hstepm, _⟩ :=
        (visit_sound nm dp steps (steps.length + 1)).1 (nm s) st stm hm hinv
      rcases ih (fun x hx => hsub x (by simp [hx])) stm hinvm
        (by rw [hstepm.visiting_eq]; exact hempty) with hok' | hcirc'
      · obtain ⟨st', h'⟩ := hok'
        exact Or.inl ⟨st', by simp only [visitAll]; rw [hm]; exact h'⟩
      · obtain ⟨c, h'⟩ := hcirc'
        exact Or.inr ⟨c, by simp only [visitAll]; rw [hm]; exact h'⟩
    · obtain ⟨c, hm⟩ := hcirc
      exact Or.inr ⟨c, by simp only [visitAll]; rw [hm]⟩

/-- In a dependency-ordered list, dependencies of the `i`-th element occur
among `seen` or the names of the first `i` elements. -/
theorem orderedFrom_mem_take {nm : α → String} {dp : α → List String} :
    ∀ {l : List α} {seen : List String}, orderedFrom nm dp seen l →
    ∀ i (h : i < l.length), ∀ d ∈ dp (l.get ⟨i, h⟩),
    d ∈ seen ++ (l.take i).map nm := by
  intro l
  induction l with
  | nil => intro seen _ i h; simp at h
  | cons x rest ih =>
    intro seen hord i h d hd
    cases i with
    | zero =>
      simp only [List.get] at hd
      have := hord.1 d hd
      simp [this]
    | succ i =>
      have h' : i < rest.length := by simpa using h
      have hmem := ih hord.2 i h' d (by simpa using hd)
      simp only [List.mem_append, List.mem_singleton] at hmem ⊢
      simp only [List.take_succ_cons, List.map_cons, List.mem_cons]
      tauto

/-- An element of `l.take i` has its first occurrence before `i`. -/
theorem indexOf_lt_of_mem_take {a : String} :
    ∀ {l : List String} {i : Nat}, a ∈ l.take i → l.indexOf a < i := by
  intro l
  induction l with
  | nil => intro i h; simp at h
  | cons x rest ih =>
    intro i h
    cases i with
    | zero => simp at h
    | succ i =>
      simp only [List.take_succ_cons, List.mem_cons] at h
      rw [List.indexOf_cons]
      rcases h with rfl | h
      · simp
      · by_cases hx : x == a
        · simp [hx]
        · simpa [hx] using Nat.succ_lt_succ (ih h)

/-- A rank function strictly increasing along a relation strictly increases
along its transitive closure. -/
theorem transGen_rank {r : String → String → Prop} {rank : String → Nat}
    (hr : ∀ a b, r a b → rank a < rank b) :
    ∀ {a b}, Relation.TransGen r a b → rank a < rank b := by
  intro a b h
  induction h with
  | single h => exact hr _ _ h
  | tail _ h ih => exact ih.trans (hr _ _ h)

/-- If the sort succeeds, the graph had no dependency cycle: the position of
a name in the output ranks the dependency relation. -/
theorem sortG_ok_acyclic {nm : α → String} {dp : α → List String}
    {steps order : List α} (h : topologicalSortG nm dp steps = .ok order) :
    Acyclic nm dp steps := by
  obtain ⟨hord, _, hlookup, hnames⟩ := sortG_ok h
  have hrank : ∀ a b, DirectDep nm dp steps a b →
      (order.map nm).indexOf a < (order.map nm).indexOf b := by
    rintro a b ⟨s, hs, ha⟩
    have hsmem : s ∈ steps := List.mem_of_find?_eq_some hs
    have hbnm : nm s = b := by simpa using List.find?_some hs
    have hbmem : b ∈ order.map nm := hbnm ▸ hnames s hsmem
    have hilen : (order.map nm).indexOf b < (order.map nm).length :=
      List.indexOf_lt_length.mpr hbmem
    have hilen' : (order.map nm).indexOf b < order.length := by
      simpa using hilen
    have hnmi : nm (order.get ⟨(order.map nm).indexOf b, hilen'⟩) = b := by
      have hg := List.indexOf_get hilen
      rw [List.get_eq_getElem, List.getElem_map] at hg
      simpa using hg
    have hs' := hlookup (order.get ⟨(order.map nm).indexOf b, hilen'⟩)
      (order.get_mem _ hilen')
    rw [hnmi] at hs'
    have heq : order.get ⟨(order.map nm).indexOf b, hilen'⟩ = s := by
      rw [hs] at hs'
      exact (Option.some.inj hs').symm
    have hatake : a ∈ (order.take ((order.map nm).indexOf b)).map nm := by
      have := orderedFrom_mem_take hord _ hilen' a (heq ▸ ha)
      simpa using this
    rw [List.map_take] at hatake
    exact indexOf_lt_of_mem_take hatake
  intro n hcyc
  exact absurd (transGen_rank hrank hcyc) (lt_irrefl _)

/-- Reformulation of `orderedFrom`: in the output every element sits
strictly after an occurrence of each of its dependency names. -/
theorem orderedFrom_strictly_after {nm : α → String} {dp : α → List String}
    {order : List α} (h : orderedFrom nm dp [] order) :
    ∀ i (hi : i < order.length), ∀ d ∈ dp (order.get ⟨i, hi⟩),
    ∃ j, ∃ hj : j < order.length, j < i ∧ nm (order.get ⟨j, hj⟩) = d := by
  intro i hi d hd
  have hmem := orderedFrom_mem_take h i hi d hd
  simp only [List.nil_append] at hmem
  obtain ⟨t, ht, rfl⟩ := List.mem_map.mp hmem
  obtain ⟨⟨j, hjlen⟩, hjt⟩ := List.mem_iff_get.mp ht
  have hlen := hjlen
  simp only [List.length_take, lt_min_iff] at hlen
  refine ⟨j, hlen.2, hlen.1, ?_⟩
  have hget : (order.take i).get ⟨j, hjlen⟩ = order.get ⟨j, hlen.2⟩ := by
    simp [List.getElem_take]
  rw [← hjt, hget]

/-- With duplicate-free step names, a successful sort's output is a
permutation of the declared steps. -/
theorem sortG_perm {nm : α → String} {dp : α → List String} {steps order : List α}
    (hnodup : (steps.map nm).Nodup) (h : topologicalSortG nm dp steps = .ok order) :
    order.Perm steps := by
  obtain ⟨_, hordNodup, _, hnames⟩ := sortG_ok h
  have hsub1 : ∀ t ∈ order, t ∈ steps := sortG_ok_subset h
  have hsub2 : ∀ s ∈ steps, s ∈ order := by
    intro s hs
    obtain ⟨t, ht, hnmt⟩ := List.mem_map.mp (hnames s hs)
    have : t = s := List.inj_on_of_nodup_map hnodup (hsub1 t ht) hs hnmt
    exact this ▸ ht
  exact ((List.Nodup.of_map nm hordNodup).subperm fun _ ht => hsub1 _ ht).antisymm
    ((List.Nodup.of_map nm hnodup).subperm fun _ hs => hsub2 _ hs)


end TopologicalSortTheorems

section RecordTheorems

/-! ### JS record lemmas -/

theorem recordKeys_append (m : JSRecord) (k : String) (v : Value) :
    recordKeys (m ++ [(k, v)]) = recordKeys m ++ [k] := by
  simp [recordKeys]

/-- Assigning a key not yet present appends the entry. -/
theorem recordSet_fresh {m : JSRecord} {k : String} (v : Value)
    (h : k ∉ recordKeys m) : recordSet m k v = m ++ [(k, v)] := by
  unfold recordSet
  rw [if_neg]
  intro hany
  obtain ⟨p, hp, hpk⟩ := List.any_eq_true.mp hany
  exact h (List.mem_map.mpr ⟨p, hp, by simpa using (eq_of_beq hpk)⟩)

theorem recordGet_of_not_mem {m : JSRecord} {k : String}
    (h : k ∉ recordKeys m) : recordGet m k = none := by
  unfold recordGet
  rw [List.find?_eq_none.mpr]
  · rfl
  · intro p hp hpk
    exact h (List.mem_map.mpr ⟨p, hp, by simpa using (eq_of_beq hpk)⟩)

/-- The overwrite branch of `recordSet` puts the new value where the first
occurrence of the key was. -/
theorem find?_map_overwrite_self {k : String} {v : Value} :
    ∀ m : JSRecord, m.any (fun p => p.1 == k) = true →
    (m.map (fun p => if p.1 == k then (k, v) else p)).find?
      (fun p => p.1 == k) = some (k, v) := by
  intro m
  induction m with
  | nil => simp
  | cons p rest ih =>
    intro hany
    by_cases hp : (p.1 == k) = true
    · rw [List.map_cons, List.find?_cons_of_pos _ (by simp [hp])]
      simp [hp]
    · have hrest : rest.any (fun p => p.1 == k) = true := by
        rcases List.any_eq_true.mp hany with ⟨q, hq, hqk⟩
        rcases List.mem_cons.mp hq with rfl | hq
        · exact absurd hqk hp
        · exact List.any_eq_true.mpr ⟨q, hq, hqk⟩
      rw [List.map_cons, List.find?_cons_of_neg _ (by simp [hp])]
      exact ih hrest

/-- The overwrite branch of `recordSet` does not disturb other keys. -/
theorem find?_map_overwrite_ne {k k' : String} {v : Value} (hne : k ≠ k') :
    ∀ m : JSRecord,
    (m.map (fun p => if p.1 == k' then (k', v) else p)).find?
      (fun p => p.1 == k) = m.find? (fun p => p.1 == k) := by
  intro m
  induction m with
  | nil => simp
  | cons p rest ih =>
    by_cases hp : (p.1 == k') = true
    · have h1 : ¬ ((k' : String) == k) = true := by
        simp only [beq_iff_eq]
        exact fun hc => hne hc.symm
      have h2 : ¬ (p.1 == k) = true := by
        simp only [beq_iff_eq]
        rw [eq_of_beq hp]
        exact fun hc => hne hc.symm
      rw [List.map_cons, List.find?_cons_of_neg _ (by simp [hp, h1]),
        List.find?_cons_of_neg (p := fun q : String × Value => q.1 == k) _ h2]
      exact ih
    · by_cases hpk : (p.1 == k) = true
      · rw [List.map_cons, List.find?_cons_of_pos _ (by simp [hp, hpk]),
          List.find?_cons_of_pos (p := fun q : String × Value => q.1 == k) _ hpk]
        simp [hp]
      · rw [List.map_cons, List.find?_cons_of_neg _ (by simp [hp, hpk]),
          List.find?_cons_of_neg (p := fun q : String × Value => q.1 == k) _ hpk]
        exact ih

/-- Appending an entry with a different key does not disturb a lookup. -/
theorem find?_append_single_ne {k k' : String} {v : Value} (hne : k ≠ k') :
    ∀ m : JSRecord,
    (m ++ [(k', v)]).find? (fun p => p.1 == k) = m.find? (fun p => p.1 == k) := by
  intro m
  induction m with
  | nil =>
    have h1 : ¬ ((k' : String) == k) = true := by
      simp only [beq_iff_eq]
      exact fun hc => hne hc.symm
    simp [List.find?, h1]
  | cons p rest ih =>
    by_cases hpk : (p.1 == k) = true
    · rw [List.cons_append,
        List.find?_cons_of_pos (p := fun q : String × Value => q.1 == k) _ hpk,
        List.find?_cons_of_pos (p := fun q : String × Value => q.1 == k) _ hpk]
    · rw [List.cons_append,
        List.find?_cons_of_neg (p := fun q : String × Value => q.1 == k) _ hpk,
        List.find?_cons_of_neg (p := fun q : String × Value => q.1 == k) _ hpk]
      exact ih

/-- Looking up a key after assigning it yields the assigned value. -/
theorem recordGet_set_self (m : JSRecord) (k : String) (v : Value) :
    recordGet (recordSet m k v) k = some v := by
  unfold recordSet recordGet
  by_cases hany : m.any (fun p => p.1 == k) = true
  · rw [if_pos hany, find?_map_overwrite_self m hany]
    rfl
  · rw [if_neg hany]
    have hnone : m.find? (fun p => p.1 == k) = none := by
      rw [List.find?_eq_none]
      intro p hp hpk
      exact hany (List.any_eq_true.mpr ⟨p, hp, hpk⟩)
    induction m with
    | nil => simp
    | cons p rest ih =>
      have hpk : ¬ (p.1 == k) = true := by
        intro hc
        exact hany (List.any_eq_true.mpr ⟨p, by simp, hc⟩)
      have hany' : ¬ rest.any (fun p => p.1 == k) = true := by
        intro hc
        obtain ⟨q, hq, hqk⟩ := List.any_eq_true.mp hc
        exact hany (List.any_eq_true.mpr ⟨q, by simp [hq], hqk⟩)
      have hnone' : rest.find? (fun p => p.1 == k) = none := by
        rw [List.find?_eq_none]
        intro q hq hqk
        exact hany' (List.any_eq_true.mpr ⟨q, hq, hqk⟩)
      rw [List.cons_append,
        List.find?_cons_of_neg (p := fun q : String × Value => q.1 == k) _ hpk]
      exact ih hany' hnone'

/-- Assigning one key leaves lookups of other keys unchanged. -/
theorem recordGet_set_ne (m : JSRecord) {k k' : String} (v : Value)
    (hne : k ≠ k') : recordGet (recordSet m k' v) k = recordGet m k := by
  unfold recordSet recordGet
  by_cases hany : m.any (fun p => p.1 == k') = true
  · rw [if_pos hany, find?_map_overwrite_ne hne m]
  · rw [if_neg hany, find?_append_single_ne hne m]

end RecordTheorems

section LoopTheorems

/-! ### The MCP dispatch loop -/

theorem mcpOutsFrom_nil (col : Collaborators) (outs : JSRecord) :
    mcpOutsFrom col outs [] = outs := rfl

theorem mcpOutsFrom_cons (col : Collaborators) (outs : JSRecord)
    (step : StepDefinition) (rest : List StepDefinition) :
    mcpOutsFrom col outs (step :: rest) =
      mcpOutsFrom col
        (match execStep col step outs with
         | .ok v => recordSet outs step.name v
         | .error _ => outs) rest := rfl

/-- A loop over an all-succeeding list returns no failure, accumulates every
output, and dispatches every step in order. -/
theorem runWithMCPLoop_all_ok (col : Collaborators) :
    ∀ (l : List StepDefinition) (outs : JSRecord), mcpAllOk col outs l = true →
    runWithMCPLoop col l outs =
      (none, mcpOutsFrom col outs l, l.map (fun s => s.name)) := by
  intro l
  induction l with
  | nil => intro outs _; rfl
  | cons step rest ih =>
    intro outs h
    unfold mcpAllOk at h
    cases hexec : execStep col step outs with
    | error e => rw [hexec] at h; simp at h
    | ok v =>
      rw [hexec] at h
      have := ih (recordSet outs step.name v) h
      simp only [runWithMCPLoop, hexec, this, mcpOutsFrom_cons, List.map_cons]

/-- A loop whose prefix succeeds and whose next step fails stops there: the
failure carries that step's name and message, the outputs are exactly the
prefix outputs, nothing after the failing step is dispatched. -/
theorem runWithMCPLoop_fail (col : Collaborators) (failStep : StepDefinition)
    (msg : String) :
    ∀ (pre : List StepDefinition) (outs : JSRecord) (post : List StepDefinition),
    mcpAllOk col outs pre = true →
    execStep col failStep (mcpOutsFrom col outs pre) = .error msg →
    runWithMCPLoop col (pre ++ failStep :: post) outs =
      (some (msg, failStep.name), mcpOutsFrom col outs pre,
       pre.map (fun s => s.name) ++ [failStep.name]) := by
  intro pre
  induction pre with
  | nil =>
    intro outs post _ hfail
    rw [mcpOutsFrom_nil] at hfail
    simp only [List.nil_append, runWithMCPLoop, hfail, List.map_nil, mcpOutsFrom_nil]
  | cons s pre ih =>
    intro outs post hok hfail
    unfold mcpAllOk at hok
    cases hexec : execStep col s outs with
    | error e => rw [hexec] at hok; simp at hok
    | ok v =>
      simp only [hexec] at hok
      simp only [mcpOutsFrom_cons, hexec] at hfail
      have hrec := ih (recordSet outs s.name v) post hok hfail
      simp only [List.cons_append, runWithMCPLoop, hexec, List.append_eq, hrec,
        mcpOutsFrom_cons, List.map_cons]

/-- Keys accumulated by an all-succeeding loop: the starting keys followed
by the step names, provided the combined names are duplicate-free. -/
theorem mcpOutsFrom_keys (col : Collaborators) :
    ∀ (l : List StepDefinition) (outs : JSRecord), mcpAllOk col outs l = true →
    (recordKeys outs ++ l.map (fun s => s.name)).Nodup →
    recordKeys (mcpOutsFrom col outs l) =
      recordKeys outs ++ l.map (fun s => s.name) := by
  intro l
  induction l with
  | nil => intro outs _ _; simp [mcpOutsFrom_nil]
  | cons step rest ih =>
    intro outs h hnd
    unfold mcpAllOk at h
    cases hexec : execStep col step outs with
    | error e => rw [hexec] at h; simp at h
    | ok v =>
      rw [hexec] at h
      have hfresh : step.name ∉ recordKeys outs := by
        intro hc
        rw [List.map_cons] at hnd
        have := (List.nodup_append.mp hnd).2.2
        exact this hc (by simp)
      rw [mcpOutsFrom_cons, hexec]
      have hset := recordSet_fresh v hfresh
      have hnd' : (recordKeys (recordSet outs step.name v) ++
          rest.map (fun s => s.name)).Nodup := by
        rw [hset, recordKeys_append]
        simpa [List.append_assoc] using hnd
      rw [ih (recordSet outs step.name v) h hnd', hset, recordKeys_append]
      simp

end LoopTheorems

section EngineTheorems

/-! ### The engine dispatch loop (spec-modelled) and `convertResult` -/

theorem engineOutsFrom_nil (exec : AdapterExecutor) (outs : JSRecord) :
    engineOutsFrom exec outs [] = outs := rfl

theorem engineOutsFrom_cons (exec : AdapterExecutor) (outs : JSRecord)
    (s : EngineStep) (rest : List EngineStep) :
    engineOutsFrom exec outs (s :: rest) =
      engineOutsFrom exec
        (if (exec s outs).success then
          recordSet outs s.stepName ((exec s outs).output.getD .vNull)
         else outs) rest := rfl

/-- The engine loop over an all-succeeding list: all logs, all outputs, the
success flag, every step dispatched. -/
theorem engineRunSteps_all_ok (exec : AdapterExecutor) :
    ∀ (l : List EngineStep) (outs : JSRecord), engineAllOk exec outs l = true →
    engineRunSteps exec l outs =
      (engineLogsFrom exec outs l, engineOutsFrom exec outs l, true,
       l.map (fun s => s.stepName)) := by
  intro l
  induction l with
  | nil => intro outs _; rfl
  | cons s rest ih =>
    intro outs h
    unfold engineAllOk at h
    by_cases hs : (exec s outs).success = true
    · simp only [hs, if_true] at h
      have hrec := ih (recordSet outs s.stepName ((exec s outs).output.getD .vNull)) h
      simp only [engineRunSteps, hs, if_true, hrec, engineLogsFrom,
        engineOutsFrom_cons, List.map_cons]
    · simp only [hs] at h
      simp at h

/-- The engine loop over a succeeding prefix followed by a failing step:
logs are the prefix logs plus the failure log, outputs are the prefix
outputs, the run is failed, and nothing behind the failing step is
dispatched. -/
theorem engineRunSteps_fail (exec : AdapterExecutor) (failE : EngineStep) :
    ∀ (pre : List EngineStep) (outs : JSRecord) (post : List EngineStep),
    engineAllOk exec outs pre = true →
    (exec failE (engineOutsFrom exec outs pre)).success = false →
    engineRunSteps exec (pre ++ failE :: post) outs =
      (engineLogsFrom exec outs pre ++
         [{ stepName := failE.stepName, success := false,
            errorType := (exec failE (engineOutsFrom exec outs pre)).errorType,
            errorMessage := (exec failE (engineOutsFrom exec outs pre)).errorMessage }],
       engineOutsFrom exec outs pre, false,
       pre.map (fun s => s.stepName) ++ [failE.stepName]) := by
  intro pre
  induction pre with
  | nil =>
    intro outs post _ hfail
    rw [engineOutsFrom_nil] at hfail ⊢
    simp only [List.nil_append, engineRunSteps, hfail, if_false, Bool.false_eq_true,
      engineLogsFrom, List.map_nil]
  | cons s pre ih =>
    intro outs post hok hfail
    unfold engineAllOk at hok
    by_cases hs : (exec s outs).success = true
    · simp only [hs, if_true] at hok
      rw [engineOutsFrom_cons] at hfail
      rw [if_pos hs] at hfail
      have hrec := ih (recordSet outs s.stepName ((exec s outs).output.getD .vNull))
        post hok hfail
      simp only [List.cons_append, engineRunSteps, hs, if_true, List.append_eq, hrec,
        engineLogsFrom, engineOutsFrom_cons, List.map_cons, if_pos hs]
    · simp only [hs] at hok
      simp at hok

theorem engineLogsFrom_names (exec : AdapterExecutor) :
    ∀ (l : List EngineStep) (outs : JSRecord),
    (engineLogsFrom exec outs l).map (fun log => log.stepName) =
      l.map (fun s => s.stepName) := by
  intro l
  induction l with
  | nil => intro outs; rfl
  | cons s rest ih => intro outs; simp only [engineLogsFrom, List.map_cons, ih]

theorem engineLogsFrom_success (exec : AdapterExecutor) :
    ∀ (l : List EngineStep) (outs : JSRecord),
    ∀ log ∈ engineLogsFrom exec outs l, log.success = true := by
  intro l
  induction l with
  | nil => intro outs log hlog; simp [engineLogsFrom] at hlog
  | cons s rest ih =>
    intro outs log hlog
    simp only [engineLogsFrom, List.mem_cons] at hlog
    rcases hlog with rfl | hlog
    · rfl
    · exact ih _ log hlog

/-- `find?` of the first failed log skips a prefix of successful logs. -/
theorem find?_failed_append {l1 l2 : List StepExecutionLog}
    (h : ∀ log ∈ l1, log.success = true) :
    (l1 ++ l2).find? (fun log => !log.success) =
      l2.find? (fun log => !log.success) := by
  induction l1 with
  | nil => simp
  | cons log rest ih =>
    rw [List.cons_append,
      List.find?_cons_of_neg _ (by simp [h log (by simp)]),
      ih (fun x hx => h x (by simp [hx]))]

end EngineTheorems

section ConvertTheorems

/-! ### The result converter's output filter -/

theorem convertOutputsFold_nil (outs : JSRecord) :
    convertOutputsFold [] outs = outs := rfl

theorem convertOutputsFold_cons (log : StepExecutionLog)
    (logs : List StepExecutionLog) (outs : JSRecord) :
    convertOutputsFold (log :: logs) outs =
      convertOutputsFold logs
        (if truthyOpt log.output then
          recordSet outs log.stepName (log.output.getD .vNull)
         else outs) := rfl

/-- The converter's fold keeps exactly the truthy-output logs: its key list
is the starting keys followed by the names of the logs whose output is
truthy. -/
theorem convertOutputsFold_keys :
    ∀ (logs : List StepExecutionLog) (outs : JSRecord),
    (recordKeys outs ++ logs.map (fun log => log.stepName)).Nodup →
    recordKeys (convertOutputsFold logs outs) =
      recordKeys outs ++
        (logs.filter (fun log => truthyOpt log.output)).map (fun log => log.stepName) := by
  intro logs
  induction logs with
  | nil => intro outs _; simp [convertOutputsFold_nil]
  | cons log rest ih =>
    intro outs hnd
    rw [convertOutputsFold_cons]
    by_cases ht : truthyOpt log.output = true
    · have hfresh : log.stepName ∉ recordKeys outs := by
        intro hc
        rw [List.map_cons] at hnd
        exact (List.nodup_append.mp hnd).2.2 hc (by simp)
      rw [if_pos ht]
      have hset := recordSet_fresh (log.output.getD .vNull) hfresh
      have hnd' : (recordKeys (recordSet outs log.stepName (log.output.getD .vNull)) ++
          rest.map (fun log => log.stepName)).Nodup := by
        rw [hset, recordKeys_append]
        simpa [List.append_assoc] using hnd
      rw [ih _ hnd', hset, recordKeys_append]
      simp [List.filter_cons, ht]
    · rw [if_neg ht]
      have hnd' : (recordKeys outs ++ rest.map (fun log => log.stepName)).Nodup := by
        refine List.Nodup.sublist ?_ hnd
        rw [List.map_cons]
        exact (List.sublist_cons_self log.stepName (rest.map (fun log => log.stepName))).append_left
          (recordKeys outs)
      rw [ih _ hnd']
      simp [List.filter_cons, ht]

/-- The converter's fold never touches keys outside the log names. -/
theorem convertOutputsFold_frozen :
    ∀ (logs : List StepExecutionLog) (outs : JSRecord) (k : String),
    k ∉ logs.map (fun log => log.stepName) →
    recordGet (convertOutputsFold logs outs) k = recordGet outs k := by
  intro logs
  induction logs with
  | nil => intro outs k _; rfl
  | cons log rest ih =>
    intro outs k hk
    rw [List.map_cons, List.mem_cons] at hk
    push_neg at hk
    rw [convertOutputsFold_cons]
    by_cases ht : truthyOpt log.output = true
    · rw [if_pos ht, ih _ k hk.2, recordGet_set_ne _ _ hk.1]
    · rw [if_neg ht, ih _ k hk.2]

/-- A truthy-output log's entry survives the fold with exactly its logged
output. -/
theorem convertOutputsFold_get :
    ∀ (logs : List StepExecutionLog) (outs : JSRecord),
    (recordKeys outs ++ logs.map (fun log => log.stepName)).Nodup →
    ∀ log ∈ logs, truthyOpt log.output = true →
    recordGet (convertOutputsFold logs outs) log.stepName = log.output := by
  intro logs
  induction logs with
  | nil => intro outs _ log hlog; simp at hlog
  | cons l rest ih =>
    intro outs hnd log hlog ht
    rcases List.mem_cons.mp hlog with rfl | hlog
    · rw [convertOutputsFold_cons, if_pos ht]
      have hnotin : log.stepName ∉ rest.map (fun x => x.stepName) := by
        rw [List.map_cons] at hnd
        have := ((List.nodup_append.mp hnd).2.1)
        exact (List.nodup_cons.mp this).1
      rw [convertOutputsFold_frozen rest _ _ hnotin, recordGet_set_self]
      obtain ⟨v, hv⟩ : ∃ v, log.output = some v := by
        cases hout : log.output with
        | none => rw [hout] at ht; simp [truthyOpt] at ht
        | some v => exact ⟨v, rfl⟩
      rw [hv]
      rfl
    · rw [convertOutputsFold_cons]
      by_cases hlt : truthyOpt l.output = true
      · have hfresh : l.stepName ∉ recordKeys outs := by
          intro hc
          rw [List.map_cons] at hnd
          exact (List.nodup_append.mp hnd).2.2 hc (by simp)
        have hset := recordSet_fresh (l.output.getD .vNull) hfresh
        have hnd' : (recordKeys (recordSet outs l.stepName (l.output.getD .vNull)) ++
            rest.map (fun log => log.stepName)).Nodup := by
          rw [hset, recordKeys_append]
          simpa [List.append_assoc] using hnd
        rw [if_pos hlt]
        exact ih _ hnd' log hlog ht
      · have hnd' : (recordKeys outs ++ rest.map (fun log => log.stepName)).Nodup := by
          refine List.Nodup.sublist ?_ hnd
          rw [List.map_cons]
          exact (List.sublist_cons_self l.stepName (rest.map (fun log => log.stepName))).append_left
            (recordKeys outs)
        rw [if_neg hlt]
        exact ih _ hnd' log hlog ht

end ConvertTheorems

section ConvertStepsTheorems

/-! ### The SDK-to-engine step conversion preserves the graph -/

theorem toWorkflowStep_fields {s : StepDefinition} {es : EngineStep}
    (h : toWorkflowStep s = .ok es) :
    es.stepName = s.name ∧ es.dependsOn = s.dependsOn := by
  unfold toWorkflowStep at h
  cases hm : s.model with
  | none => rw [hm] at h; exact absurd h (by simp)
  | some m =>
    simp only [hm] at h
    cases hp : parseModel m with
    | error e => simp only [hp] at h; exact absurd h (by simp)
    | ok pm =>
      simp only [hp] at h
      cases h
      exact ⟨rfl, rfl⟩

theorem convertSteps_names :
    ∀ {l : List StepDefinition} {ws : List EngineStep}, convertSteps l = .ok ws →
    ws.map (fun es => es.stepName) = l.map (fun s => s.name) := by
  intro l
  induction l with
  | nil =>
    intro ws h
    simp only [convertSteps] at h
    cases h
    rfl
  | cons s rest ih =>
    intro ws h
    simp only [convertSteps] at h
    cases hs : toWorkflowStep s with
    | error e => rw [hs] at h; exact absurd h (by simp)
    | ok es =>
      rw [hs] at h
      cases hr : convertSteps rest with
      | error e => rw [hr] at h; exact absurd h (by simp)
      | ok ws' =>
        rw [hr] at h
        cases h
        simp only [List.map_cons, ih hr, (toWorkflowStep_fields hs).1]

theorem convertSteps_align :
    ∀ {l : List StepDefinition} {ws : List EngineStep}, convertSteps l = .ok ws →
    ∀ es ∈ ws, ∃ s ∈ l, es.stepName = s.name ∧ es.dependsOn = s.dependsOn := by
  intro l
  induction l with
  | nil =>
    intro ws h es hes
    simp only [convertSteps] at h
    cases h
    simp at hes
  | cons s rest ih =>
    intro ws h es hes
    simp only [convertSteps] at h
    cases hs : toWorkflowStep s with
    | error e => rw [hs] at h; exact absurd h (by simp)
    | ok es0 =>
      rw [hs] at h
      cases hr : convertSteps rest with
      | error e => rw [hr] at h; exact absurd h (by simp)
      | ok ws' =>
        rw [hr] at h
        cases h
        rcases List.mem_cons.mp hes with rfl | hes
        · exact ⟨s, by simp, toWorkflowStep_fields hs⟩
        · obtain ⟨t, ht, hfields⟩ := ih hr es hes
          exact ⟨t, by simp [ht], hfields⟩

theorem convertSteps_lookup :
    ∀ {l : List StepDefinition} {ws : List EngineStep}, convertSteps l = .ok ws →
    ∀ n : String,
    (lookupStep (fun s => s.name) l n = none ∧
     lookupStep (fun es => es.stepName) ws n = none) ∨
    (∃ s es, lookupStep (fun s => s.name) l n = some s ∧
             lookupStep (fun es => es.stepName) ws n = some es ∧
             es.stepName = s.name ∧ es.dependsOn = s.dependsOn) := by
  intro l
  induction l with
  | nil =>
    intro ws h n
    simp only [convertSteps] at h
    cases h
    exact Or.inl ⟨rfl, rfl⟩
  | cons s rest ih =>
    intro ws h n
    simp only [convertSteps] at h
    cases hs : toWorkflowStep s with
    | error e => rw [hs] at h; exact absurd h (by simp)
    | ok es0 =>
      rw [hs] at h
      cases hr : convertSteps rest with
      | error e => rw [hr] at h; exact absurd h (by simp)
      | ok ws' =>
        rw [hr] at h
        cases h
        obtain ⟨hname, hdeps⟩ := toWorkflowStep_fields hs
        by_cases hn : (s.name == n) = true
        · refine Or.inr ⟨s, es0, ?_, ?_, hname, hdeps⟩
          · exact List.find?_cons_of_pos _ hn
          · exact List.find?_cons_of_pos _ (by simpa [hname] using hn)
        · have h1 : lookupStep (fun s => s.name) (s :: rest) n =
              lookupStep (fun s => s.name) rest n :=
            List.find?_cons_of_neg _ hn
          have h2 : lookupStep (fun es => es.stepName) (es0 :: ws') n =
              lookupStep (fun es => es.stepName) ws' n :=
            List.find?_cons_of_neg _ (by simpa [hname] using hn)
          rw [h1, h2]
          exact ih hr n

theorem convertSteps_directDep {l : List StepDefinition} {ws : List EngineStep}
    (h : convertSteps l = .ok ws) (a b : String) :
    DirectDep (fun es => es.stepName) (fun es => es.dependsOn) ws a b ↔
    DirectDep (fun s => s.name) (fun s => s.dependsOn) l a b := by
  constructor
  · rintro ⟨es, hlook, ha⟩
    rcases convertSteps_lookup h b with ⟨_, hnone⟩ | ⟨s, es', h1, h2, _, hdeps⟩
    · rw [hlook] at hnone; cases hnone
    · rw [hlook] at h2
      cases h2
      exact ⟨s, h1, by simpa [← hdeps] using ha⟩
  · rintro ⟨s, hlook, ha⟩
    rcases convertSteps_lookup h b with ⟨hnone, _⟩ | ⟨s', es, h1, h2, _, hdeps⟩
    · rw [hlook] at hnone; cases hnone
    · rw [hlook] at h1
      cases h1
      exact ⟨es, h2, by simpa [hdeps] using ha⟩

theorem convertSteps_closed {l : List StepDefinition} {ws : List EngineStep}
    (h : convertSteps l = .ok ws)
    (hclosed : DepsClosed (fun s => s.name) (fun s => s.dependsOn) l) :
    DepsClosed (fun es => es.stepName) (fun es => es.dependsOn) ws := by
  intro es hes d hd
  obtain ⟨s, hs, _, hdeps⟩ := convertSteps_align h es hes
  rw [convertSteps_names h]
  exact hclosed s hs d (by simpa [← hdeps] using hd)

theorem transGen_iff_of_iff {r r' : String → String → Prop}
    (h : ∀ a b, r a b ↔ r' a b) {a b : String} :
    Relation.TransGen r a b ↔ Relation.TransGen r' a b :=
  ⟨Relation.TransGen.mono (fun x y hxy => (h x y).mp hxy),
   Relation.TransGen.mono (fun x y hxy => (h x y).mpr hxy)⟩

/-- When the workflow has no MCP step, the AI filter keeps every step. -/
theorem filter_ai_of_no_mcp {steps : List StepDefinition}
    (h : hasMCPSteps steps = false) :
    steps.filter (fun s => s.type == .ai) = steps := by
  rw [List.filter_eq_self]
  intro s hs
  unfold hasMCPSteps at h
  rw [List.any_eq_false] at h
  have := h s hs
  cases htype : s.type with
  | ai => simp
  | mcp => rw [htype] at this; simp at this

end ConvertStepsTheorems

section MoreHelpers

variable {α : Type}

/-- A ranking that strictly increases along the direct dependency relation
certifies acyclicity. -/
theorem acyclic_of_rank {nm : α → String} {dp : α → List String}
    {steps : List α} (rank : String → Nat)
    (h : ∀ a b, DirectDep nm dp steps a b → rank a < rank b) :
    Acyclic nm dp steps :=
  fun _ hc => absurd (transGen_rank h hc) (lt_irrefl _)

/-- A direct dependency edge is witnessed by a declared step. -/
theorem DirectDep_mem {nm : α → String} {dp : α → List String}
    {steps : List α} {a b : String} (h : DirectDep nm dp steps a b) :
    ∃ s, s ∈ steps ∧ nm s = b ∧ a ∈ dp s := by
  obtain ⟨s, hs, ha⟩ := h
  exact ⟨s, List.mem_of_find?_eq_some hs, by simpa using List.find?_some hs, ha⟩

theorem intercalate_single (s : String) : String.intercalate ", " [s] = s := by
  simp [String.intercalate, String.intercalate.go]

theorem storeUpdate_get?_ne (store : StepStore) (i : Nat)
    (f : StepDefinition → StepDefinition) {j : Nat} (h : j ≠ i) :
    (storeUpdate store i f).get? j = store.get? j := by
  unfold storeUpdate
  cases hg : store.get? i with
  | none => rfl
  | some s => exact List.get?_set_ne (f s) store (Ne.symm h)

theorem storeUpdate_get?_self (store : StepStore) (i : Nat)
    (f : StepDefinition → StepDefinition) :
    (storeUpdate store i f).get? i = (store.get? i).map f := by
  unfold storeUpdate
  cases hg : store.get? i with
  | none => simpa using hg
  | some s =>
    have hlen : i < store.length := by
      by_contra hc
      rw [List.get?_eq_none.mpr (by omega)] at hg
      cases hg
    rw [List.get?_set_eq_of_lt (f s) hlen]
    simp

/-- A successful sort of a nonempty step list is nonempty. -/
theorem sortG_ok_ne_nil {nm : α → String} {dp : α → List String}
    {steps order : List α} (h : topologicalSortG nm dp steps = .ok order)
    (hne : steps ≠ []) : order ≠ [] := by
  intro hc
  cases steps with
  | nil => exact hne rfl
  | cons s rest =>
    have := (sortG_ok h).2.2.2 s (by simp)
    rw [hc] at this
    simp at this

end MoreHelpers

section Claims

/-! ## The claims -/

/-- C1: For every workflow step list that contains no dependency cycle and
whose every `dependsOn` entry names a step in the list (step names being
unique, the workflow data-model invariant), the scheduler
(`topologicalSort`) returns an ordering of the steps — a permutation of the
list — in which every step appears strictly after every step named in its
`dependsOn` set. -/
theorem C1_scheduler_orders_after_dependencies
    (steps : List StepDefinition)
    (hnodup : (steps.map (fun s => s.name)).Nodup)
    (hclosed : DepsClosed (fun s => s.name) (fun s => s.dependsOn) steps)
    (hacyc : Acyclic (fun s => s.name) (fun s => s.dependsOn) steps) :
    ∃ order, topologicalSort steps = .ok order ∧ order.Perm steps ∧
      ∀ i (hi : i < order.length), ∀ d ∈ (order.get ⟨i, hi⟩).dependsOn,
        ∃ j, ∃ hj : j < order.length, j < i ∧ (order.get ⟨j, hj⟩).name = d := by
  obtain ⟨order, hord⟩ := sortG_success hclosed hacyc
  exact ⟨order, hord, sortG_perm hnodup hord,
    orderedFrom_strictly_after (sortG_ok hord).1⟩

/-- C1 witness: the spec's scenario 4 graph (`a`, `b` after `a`, `c` after
`a` and `b`) is scheduled with every step after its dependencies. -/
theorem C1_scheduler_orders_after_dependencies_witness :
    ∃ order,
      topologicalSort
        [{ name := "a", type := .ai, model := some "openai:gpt-4o" },
         { name := "b", type := .ai, model := some "openai:gpt-4o", dependsOn := ["a"] },
         { name := "c", type := .ai, model := some "openai:gpt-4o", dependsOn := ["a", "b"] }] =
        .ok order ∧
      order.Perm
        [{ name := "a", type := .ai, model := some "openai:gpt-4o" },
         { name := "b", type := .ai, model := some "openai:gpt-4o", dependsOn := ["a"] },
         { name := "c", type := .ai, model := some "openai:gpt-4o", dependsOn := ["a", "b"] }] ∧
      ∀ i (hi : i < order.length), ∀ d ∈ (order.get ⟨i, hi⟩).dependsOn,
        ∃ j, ∃ hj : j < order.length, j < i ∧ (order.get ⟨j, hj⟩).name = d := by
  apply C1_scheduler_orders_after_dependencies
  · decide
  · unfold DepsClosed
    decide
  · apply acyclic_of_rank (fun n => if n = "a" then 0 else if n = "b" then 1 else 2)
    intro a b hd
    obtain ⟨s, hs, hnm, ha⟩ := DirectDep_mem hd
    simp only [List.mem_cons, List.not_mem_nil, or_false] at hs
    rcases hs with rfl | rfl | rfl
    · simp at ha
    · simp only at hnm ha
      subst hnm
      simp only [List.mem_singleton] at ha
      subst ha
      decide
    · simp only at hnm ha
      subst hnm
      simp only [List.mem_cons, List.not_mem_nil, or_false] at ha
      rcases ha with rfl | rfl <;> decide

/-- C2: For every workflow graph (dependency entries naming declared steps)
whose dependency relation contains a cycle, `run()` — provided the pure-AI
path's provider validation and step conversion are not failing for
unrelated reasons — fails with the graph-validity circular-dependency
error, with no step recorded and no step name blamed, and no step is ever
dispatched to an AI adapter or tool executor (empty dispatch trace). -/
theorem C2_cycle_fails_without_dispatch
    (steps : List StepDefinition) (cfg : GlobalConfigModel) (env : Env)
    (opts : Option RunOptions) (col : Collaborators) (exec : AdapterExecutor)
    (hclosed : DepsClosed (fun s => s.name) (fun s => s.dependsOn) steps)
    (hcyc : ∃ n, Relation.TransGen
      (DirectDep (fun s => s.name) (fun s => s.dependsOn) steps) n n)
    (hpure : hasMCPSteps steps = false →
      (∃ ps, extractProviders steps [] = .ok ps ∧
        validateProvidersConfigured ps cfg env opts = .ok ()) ∧
      ∃ ws, convertSteps steps = .ok ws) :
    ∃ c, runModel steps cfg env opts col exec =
      ({ success := false, steps := [],
         error := some { message := TSError.message (.circular c) } }, []) := by
  by_cases hmcp : hasMCPSteps steps = true
  · rcases sortG_closed hclosed with ⟨order, hok⟩ | ⟨c, hcirc⟩
    · obtain ⟨n, hn⟩ := hcyc
      exact absurd hn (sortG_ok_acyclic hok n)
    · refine ⟨c, ?_⟩
      have h1 : runWithMCPModel steps col = (.error (.circular c), []) := by
        unfold runWithMCPModel
        rw [show topologicalSort steps = .error (.circular c) from hcirc]
      unfold runModel
      rw [hmcp]
      simp only [if_true, h1, Except.mapError, catchResult]
  · have hmcp' : hasMCPSteps steps = false := by
      cases h : hasMCPSteps steps
      · rfl
      · exact absurd h hmcp
    obtain ⟨⟨ps, hex, hval⟩, ⟨ws, hconv⟩⟩ := hpure hmcp'
    have hfilter := filter_ai_of_no_mcp hmcp'
    have hwsClosed := convertSteps_closed hconv hclosed
    have hiff := convertSteps_directDep hconv
    rcases sortG_closed hwsClosed with ⟨orderE, hokE⟩ | ⟨c, hcircE⟩
    · obtain ⟨n, hn⟩ := hcyc
      have hnE : Relation.TransGen
          (DirectDep (fun es => es.stepName) (fun es => es.dependsOn) ws) n n :=
        (transGen_iff_of_iff hiff).mpr hn
      exact absurd hnE (sortG_ok_acyclic hokE n)
    · refine ⟨c, ?_⟩
      have hengine : runWorkflowEngine ws exec = (.error (.circular c), []) := by
        unfold runWorkflowEngine
        rw [hcircE]
      have hpm : runPureModel steps cfg env opts exec =
          (.error (TSError.message (.circular c)), []) := by
        unfold runPureModel
        rw [hex]
        simp only [hval, hfilter, hconv, hengine]
      unfold runModel
      rw [hmcp']
      simp only [Bool.false_eq_true, if_false, hpm, catchResult]

/-- C2 witness: a two-step cyclic MCP workflow fails with the circular
dependency error and dispatches nothing. -/
theorem C2_cycle_fails_without_dispatch_witness :
    ∃ c, runModel
        [{ name := "b", type := .mcp, mcpTool := some "x:y", dependsOn := ["c"] },
         { name := "c", type := .mcp, mcpTool := some "x:y", dependsOn := ["b"] }]
        {} (fun _ => none) none
        { aiExec := fun _ _ => .ok .vNull, mcpExec := fun _ _ => .ok .vNull }
        (fun _ _ => { success := true }) =
      ({ success := false, steps := [],
         error := some { message := TSError.message (.circular c) } }, []) := by
  apply C2_cycle_fails_without_dispatch
  · unfold DepsClosed
    decide
  · refine ⟨"b", Relation.TransGen.tail (b := "c") (Relation.TransGen.single ?_) ?_⟩
    · exact ⟨{ name := "c", type := .mcp, mcpTool := some "x:y", dependsOn := ["b"] },
        by decide, by decide⟩
    · exact ⟨{ name := "b", type := .mcp, mcpTool := some "x:y", dependsOn := ["c"] },
        by decide, by decide⟩
  · intro h
    exact absurd h (by decide)

/-- C5: credential resolution obeys the three-tier precedence.  With the
provider configured at all three tiers, the per-run override wins; with the
per-run override removed, the global configuration wins; with that removed
too, the environment variable's value is used; with all three removed,
validation fails with a configuration error naming the missing provider and
its expected environment variable. -/
theorem C5_credential_resolution_precedence
    (cfg cfg0 : GlobalConfigModel) (env env0 : Env) (provider : String)
    (perRun perRun0 : RunOptions) (c1 c2 : ProviderConfig) (envVarName v : String)
    (h1 : perRun.providers provider = some c1)
    (h2 : cfg.providers provider = some c2)
    (h3 : PROVIDER_ENV_VARS provider = some envVarName)
    (h4 : env envVarName = some v) (h5 : v ≠ "")
    (h6 : perRun0.providers provider = none)
    (h7 : cfg0.providers provider = none)
    (h8 : env0 envVarName = none) :
    resolveProviderConfig cfg env provider (some perRun) = some c1 ∧
    resolveProviderConfig cfg env provider (some perRun0) = some c2 ∧
    resolveProviderConfig cfg0 env provider (some perRun0) = some { apiKey := v } ∧
    validateProvidersConfigured [provider] cfg0 env0 (some perRun0) =
      .error ("Missing API keys for providers: " ++ provider ++
        ". Please set environment variables (" ++ envVarName ++
        ") or configure via relay.configure().") := by
  refine ⟨?_, ?_, ?_, ?_⟩
  · simp [resolveProviderConfig, h1]
  · simp [resolveProviderConfig, h6, h2]
  · simp [resolveProviderConfig, h6, h7, h3, h4, h5]
  · have hres : resolveProviderConfig cfg0 env0 provider (some perRun0) = none := by
      simp [resolveProviderConfig, h6, h7, h3, h8]
    have hmiss : ¬ isProviderConfigured cfg0 env0 provider (some perRun0) = true := by
      simp [isProviderConfigured, hres]
    have hfallback : envVarFallback provider = envVarName := by
      simp [envVarFallback, h3]
    simp [validateProvidersConfigured, hmiss, intercalate_single, hfallback]

/-- C5 witness: the three tiers and the failure case, concretely for the
`openai` provider. -/
theorem C5_credential_resolution_precedence_witness :
    resolveProviderConfig
        { providers := fun p => if p = "openai" then some { apiKey := "gk" } else none }
        (fun e => if e = "OPENAI_API_KEY" then some "ek" else none)
        "openai"
        (some { providers := fun p => if p = "openai" then some { apiKey := "rk" } else none }) =
      some { apiKey := "rk" } ∧
    resolveProviderConfig
        { providers := fun p => if p = "openai" then some { apiKey := "gk" } else none }
        (fun e => if e = "OPENAI_API_KEY" then some "ek" else none)
        "openai" (some {}) =
      some { apiKey := "gk" } ∧
    resolveProviderConfig {}
        (fun e => if e = "OPENAI_API_KEY" then some "ek" else none)
        "openai" (some {}) =
      some { apiKey := "ek" } ∧
    validateProvidersConfigured ["openai"] {} (fun _ => none) (some {}) =
      .error ("Missing API keys for providers: " ++ "openai" ++
        ". Please set environment variables (" ++ "OPENAI_API_KEY" ++
        ") or configure via relay.configure().") := by
  exact C5_credential_resolution_precedence
    { providers := fun p => if p = "openai" then some { apiKey := "gk" } else none }
    {} (fun e => if e = "OPENAI_API_KEY" then some "ek" else none) (fun _ => none)
    "openai"
    { providers := fun p => if p = "openai" then some { apiKey := "rk" } else none }
    {} { apiKey := "rk" } { apiKey := "gk" } "OPENAI_API_KEY" "ek"
    (by simp) (by simp) (by decide) (by simp) (by decide) rfl rfl rfl

/-- C8 (divergence demonstration): a pure-AI workflow whose only step uses
the keyless `local` provider, with no credential tier configured, is
rejected by `run()`'s provider validation with a missing-API-key
configuration error — it never reaches the adapter — even though the
executor's own credential gate would dispatch `local` without any
configuration. -/
theorem C8_keyless_provider_rejected_by_run_validation
    (col : Collaborators) (exec : AdapterExecutor) :
    runModel [{ name := "chat", type := .ai, model := some "local:llama3" }]
        {} (fun _ => none) none col exec =
      ({ success := false, steps := [],
         error := some { message := "Missing API keys for providers: local. Please set environment variables (LOCAL_API_KEY) or configure via relay.configure()." } }, []) ∧
    executeConfigGate "local" (fun _ => none) = .dispatch :=
  ⟨rfl, rfl⟩

/-- C9 (divergence demonstration): the run never consults the abort signal
— flipping `signalAborted` changes nothing about the run — and a run whose
options carry an already-triggered signal still dispatches every step and
completes successfully. -/
theorem C9_abort_signal_ignored :
    (∀ (steps : List StepDefinition) (cfg : GlobalConfigModel) (env : Env)
       (opts : RunOptions) (col : Collaborators) (exec : AdapterExecutor),
     runModel steps cfg env (some { opts with signalAborted := true }) col exec =
       runModel steps cfg env (some { opts with signalAborted := false }) col exec) ∧
    runModel
        [{ name := "a", type := .mcp, mcpTool := some "x:y" },
         { name := "b", type := .mcp, mcpTool := some "x:y", dependsOn := ["a"] }]
        {} (fun _ => none) (some { signalAborted := true })
        { aiExec := fun _ _ => .ok .vNull, mcpExec := fun s _ => .ok (.vStr s.name) }
        (fun _ _ => { success := true }) =
      ({ success := true,
         steps := [("a", .vStr "a"), ("b", .vStr "b")],
         finalOutput := some (.vStr "b") }, ["a", "b"]) :=
  ⟨fun _ _ _ _ _ _ => rfl, rfl⟩

/-- C7 (divergence demonstration): adding a second step named `a` to a
builder whose graph already contains a step named `a` is accepted — the
duplicate is appended to the step list, with no rejection at the second
`step()` call. -/
theorem C7_duplicate_step_name_accepted :
    (let r1 := StepWithState.withModel []
      (BuilderState.step (createWorkflow "w") "a") "openai:gpt-4o"
     let r2 := StepWithState.withModel r1.1
      (BuilderState.step r1.2 "a") "anthropic:claude-3"
     (stepsOf r2.1 r2.2).map (fun s => s.name) = ["a", "a"] ∧
     r2.2.stepRefs.length = 2) := by
  decide

/-- C6 counterexample: `prompt` on a just-bound step mutates the step
object shared with the previously obtained builder value — the step list
reachable from the old builder changes. -/
theorem C6_builder_purity_counterexample :
    (let r1 := StepWithState.withModel []
      (BuilderState.step (createWorkflow "w") "a") "openai:gpt-4o"
     let r2 := promptStepWithModel r1.1 r1.2 "hello"
     stepsOf r2.1 r1.2 ≠ stepsOf r1.1 r1.2) := by
  decide

/-- C6 amended: `step`/`with`/`mcp`/`params` never mutate existing step
objects (append-only); `prompt` and `depends` return a builder over the
same references but destructively update the last appended step's `config`
or `dependsOn` in the shared object heap — visible to every earlier builder
value holding that reference — leaving all other step objects unchanged
(`WorkflowBuilderImpl.prompt` even returns the same builder value). -/
theorem C6_amended_builder_mutation_localized :
    (∀ (store : StepStore) (sw : StepWithState) (model : String) (i : Nat),
      i < store.length →
      ((StepWithState.withModel store sw model).1).get? i = store.get? i) ∧
    (∀ (store : StepStore) (sm : StepMCPState) (params : List (String × Value)) (i : Nat),
      i < store.length →
      ((StepMCPState.params store sm params).1).get? i = store.get? i) ∧
    (∀ (store : StepStore) (b : BuilderState) (t : String) (lastRef : Nat),
      b.stepRefs.getLast? = some lastRef →
      (∀ i, i ≠ lastRef → ((promptStepWithModel store b t).1).get? i = store.get? i) ∧
      ((promptStepWithModel store b t).1).get? lastRef =
        (store.get? lastRef).map (setPromptConfig t) ∧
      (promptStepWithModel store b t).2.stepRefs = b.stepRefs) ∧
    (∀ (store : StepStore) (b : BuilderState) (deps : List String) (lastRef : Nat),
      b.stepRefs.getLast? = some lastRef →
      (∀ i, i ≠ lastRef → ((dependsStepWithModel store b deps).1).get? i = store.get? i) ∧
      ((dependsStepWithModel store b deps).1).get? lastRef =
        (store.get? lastRef).map (fun s => { s with dependsOn := deps }) ∧
      (dependsStepWithModel store b deps).2.stepRefs = b.stepRefs) ∧
    (∀ (store : StepStore) (b : BuilderState) (t : String) (lastRef : Nat),
      b.stepRefs.getLast? = some lastRef →
      (∀ i, i ≠ lastRef → ((promptBuilder store b t).1).get? i = store.get? i) ∧
      ((promptBuilder store b t).1).get? lastRef =
        (store.get? lastRef).map (setPromptConfig t) ∧
      (promptBuilder store b t).2 = b) := by
  refine ⟨?_, ?_, ?_, ?_, ?_⟩
  · intro store sw model i hi
    exact List.get?_append hi
  · intro store sm params i hi
    exact List.get?_append hi
  · intro store b t lastRef hlast
    unfold promptStepWithModel
    rw [hlast]
    exact ⟨fun i hi => storeUpdate_get?_ne store lastRef _ hi,
      storeUpdate_get?_self store lastRef _, rfl⟩
  · intro store b deps lastRef hlast
    unfold dependsStepWithModel
    rw [hlast]
    exact ⟨fun i hi => storeUpdate_get?_ne store lastRef _ hi,
      storeUpdate_get?_self store lastRef _, rfl⟩
  · intro store b t lastRef hlast
    unfold promptBuilder
    rw [hlast]
    exact ⟨fun i hi => storeUpdate_get?_ne store lastRef _ hi,
      storeUpdate_get?_self store lastRef _, rfl⟩

/-- C6 amended witness: the append and mutate cases at a concrete store. -/
theorem C6_amended_builder_mutation_localized_witness :
    ((StepWithState.withModel
        [{ name := "a", type := .ai, model := some "m:1" }]
        (BuilderState.step { workflowName := "w", stepRefs := [0] } "b") "m:2").1).get? 0 =
      [{ name := "a", type := .ai, model := some "m:1" }].get? 0 ∧
    ((promptStepWithModel
        [{ name := "a", type := .ai, model := some "m:1" }]
        { workflowName := "w", stepRefs := [0] } "hi").1).get? 0 =
      ([{ name := "a", type := .ai, model := some "m:1" }].get? 0).map
        (setPromptConfig "hi") := by
  constructor
  · exact C6_amended_builder_mutation_localized.1
      [{ name := "a", type := .ai, model := some "m:1" }]
      (BuilderState.step { workflowName := "w", stepRefs := [0] } "b") "m:2" 0
      (by decide)
  · exact (C6_amended_builder_mutation_localized.2.2.1
      [{ name := "a", type := .ai, model := some "m:1" }]
      { workflowName := "w", stepRefs := [0] } "hi" 0 (by decide)).2.1

/-- C10: converting an engine run result, a step log enters `result.steps`
exactly when its logged output is truthy — a falsy output (absent, null,
`0`, `""`, `false`) is omitted even from a successful run — and a
truthy-output log's entry is its logged output. -/
theorem C10_convertResult_truthy_filter
    (r : WorkflowRunResult)
    (hnodup : (r.steps.map (fun log => log.stepName)).Nodup) :
    recordKeys (convertResult r).steps =
      (r.steps.filter (fun log => truthyOpt log.output)).map (fun log => log.stepName) ∧
    ∀ log ∈ r.steps, truthyOpt log.output = true →
      recordGet (convertResult r).steps log.stepName = log.output := by
  have hnd : (recordKeys [] ++ r.steps.map (fun log => log.stepName)).Nodup := by
    simpa [recordKeys] using hnodup
  constructor
  · have h := convertOutputsFold_keys r.steps [] hnd
    simpa [convertResult, recordKeys] using h
  · intro log hlog ht
    have h := convertOutputsFold_get r.steps [] hnd log hlog ht
    simpa [convertResult] using h

/-- C10 witness: of four successful steps with outputs `"x"`, `""`, `0` and
absent, only the truthy `"x"` step appears in `result.steps`. -/
theorem C10_convertResult_truthy_filter_witness :
    recordKeys (convertResult { success := true, steps :=
      [{ stepName := "a", success := true, output := some (.vStr "x") },
       { stepName := "b", success := true, output := some (.vStr "") },
       { stepName := "c", success := true, output := some (.vNum 0) },
       { stepName := "d", success := true, output := none }] }).steps =
      (([{ stepName := "a", success := true, output := some (.vStr "x") },
         { stepName := "b", success := true, output := some (.vStr "") },
         { stepName := "c", success := true, output := some (.vNum 0) },
         { stepName := "d", success := true, output := none }] :
           List StepExecutionLog).filter
          (fun log => truthyOpt log.output)).map (fun log => log.stepName) ∧
    ∀ log ∈ ([{ stepName := "a", success := true, output := some (.vStr "x") },
       { stepName := "b", success := true, output := some (.vStr "") },
       { stepName := "c", success := true, output := some (.vNum 0) },
       { stepName := "d", success := true, output := none }] :
         List StepExecutionLog),
      truthyOpt log.output = true →
      recordGet (convertResult { success := true, steps :=
        [{ stepName := "a", success := true, output := some (.vStr "x") },
         { stepName := "b", success := true, output := some (.vStr "") },
         { stepName := "c", success := true, output := some (.vNum 0) },
         { stepName := "d", success := true, output := none }] }).steps
        log.stepName = log.output :=
  C10_convertResult_truthy_filter _ (by decide)

/-- C3 counterexample: a pure-AI run in which step `a` completes with the
falsy output `""` and step `b` then fails.  The claim demands
`result.steps` contain exactly the steps completed strictly before the
failing step — here `{a: ""}` — but the result's step map is empty, even
though both steps were dispatched (`a` before `b`, per the trace). -/
theorem C3_counterexample :
    runModel
        [{ name := "a", type := .ai, model := some "openai:gpt-4o" },
         { name := "b", type := .ai, model := some "openai:gpt-4o", dependsOn := ["a"] }]
        { providers := fun p => if p = "openai" then some { apiKey := "k" } else none }
        (fun _ => none) none
        { aiExec := fun _ _ => .ok .vNull, mcpExec := fun _ _ => .ok .vNull }
        (fun s _ =>
          if s.stepName = "a" then { success := true, output := some (.vStr "") }
          else { success := false, errorType := some "ProviderError",
                 errorMessage := some "boom" }) =
      ({ success := false, steps := [],
         error := some { message := "boom", type := some "ProviderError",
                         stepName := some "b" } }, ["a", "b"]) ∧
    recordKeys (runModel
        [{ name := "a", type := .ai, model := some "openai:gpt-4o" },
         { name := "b", type := .ai, model := some "openai:gpt-4o", dependsOn := ["a"] }]
        { providers := fun p => if p = "openai" then some { apiKey := "k" } else none }
        (fun _ => none) none
        { aiExec := fun _ _ => .ok .vNull, mcpExec := fun _ _ => .ok .vNull }
        (fun s _ =>
          if s.stepName = "a" then { success := true, output := some (.vStr "") }
          else { success := false, errorType := some "ProviderError",
                 errorMessage := some "boom" })).1.steps ≠ (["a"] : List String) :=
  ⟨rfl, by decide⟩

/-- C3 amended: for every run that fails while executing step K (the first
step to fail in execution order), the result has `success = false` and
`error.stepName` names K, and no step scheduled after K appears in
`result.steps` (nor is dispatched).  On the MCP dispatcher path
`result.steps` holds exactly the steps completed strictly before K; on the
pure-AI path it holds exactly those completed-before-K steps whose logged
output is truthy — a completed step with falsy output is omitted by the
result converter. -/
theorem C3_amended_failure_reports_first_failing_step :
    (∀ (steps : List StepDefinition) (cfg : GlobalConfigModel) (env : Env)
       (opts : Option RunOptions) (col : Collaborators) (exec : AdapterExecutor)
       (sorted pre post : List StepDefinition) (failStep : StepDefinition) (msg : String),
      hasMCPSteps steps = true →
      topologicalSort steps = .ok sorted →
      sorted = pre ++ failStep :: post →
      mcpAllOk col [] pre = true →
      execStep col failStep (mcpOutsFrom col [] pre) = .error msg →
      (runModel steps cfg env opts col exec).1.success = false ∧
      recordKeys (runModel steps cfg env opts col exec).1.steps =
        pre.map (fun s => s.name) ∧
      (runModel steps cfg env opts col exec).1.error =
        some { message := msg, stepName := some failStep.name } ∧
      (∀ s ∈ failStep :: post,
        s.name ∉ recordKeys (runModel steps cfg env opts col exec).1.steps) ∧
      (runModel steps cfg env opts col exec).2 =
        pre.map (fun s => s.name) ++ [failStep.name]) ∧
    (∀ (steps : List StepDefinition) (cfg : GlobalConfigModel) (env : Env)
       (opts : Option RunOptions) (col : Collaborators) (exec : AdapterExecutor)
       (providers : List String) (wsteps sortedE pre post : List EngineStep)
       (failE : EngineStep),
      hasMCPSteps steps = false →
      extractProviders steps [] = .ok providers →
      validateProvidersConfigured providers cfg env opts = .ok () →
      convertSteps steps = .ok wsteps →
      topologicalSortG (fun es => es.stepName) (fun es => es.dependsOn) wsteps =
        .ok sortedE →
      sortedE = pre ++ failE :: post →
      engineAllOk exec [] pre = true →
      (exec failE (engineOutsFrom exec [] pre)).success = false →
      (runModel steps cfg env opts col exec).1.success = false ∧
      recordKeys (runModel steps cfg env opts col exec).1.steps =
        ((engineLogsFrom exec [] pre).filter
          (fun log => truthyOpt log.output)).map (fun log => log.stepName) ∧
      (Option.map (fun e => e.stepName) (runModel steps cfg env opts col exec).1.error) =
        some (some failE.stepName) ∧
      (∀ es ∈ failE :: post,
        es.stepName ∉ recordKeys (runModel steps cfg env opts col exec).1.steps) ∧
      (runModel steps cfg env opts col exec).2 =
        pre.map (fun s => s.stepName) ++ [failE.stepName]) := by
  constructor
  · intro steps cfg env opts col exec sorted pre post failStep msg
      hmcp hsort hsplit hok hfail
    have hnames : (sorted.map (fun s => s.name)).Nodup := (sortG_ok hsort).2.1
    rw [hsplit, List.map_append] at hnames
    obtain ⟨hndpre, _, hdisj⟩ := List.nodup_append.mp hnames
    have hloop := runWithMCPLoop_fail col failStep msg pre [] post hok hfail
    have hmodel : runWithMCPModel steps col =
        (.ok { success := false, steps := mcpOutsFrom col [] pre,
               error := some { message := msg, stepName := some failStep.name } },
         pre.map (fun s => s.name) ++ [failStep.name]) := by
      unfold runWithMCPModel
      simp only [show topologicalSort steps = .ok sorted from hsort, hsplit, hloop]
    have hrun : runModel steps cfg env opts col exec =
        ({ success := false, steps := mcpOutsFrom col [] pre,
           error := some { message := msg, stepName := some failStep.name } },
         pre.map (fun s => s.name) ++ [failStep.name]) := by
      unfold runModel
      rw [hmcp]
      simp only [if_true, hmodel, Except.mapError, catchResult]
    have hkeys : recordKeys (mcpOutsFrom col [] pre) = pre.map (fun s => s.name) := by
      have h := mcpOutsFrom_keys col pre [] hok (by simpa [recordKeys] using hndpre)
      simpa [recordKeys] using h
    refine ⟨by rw [hrun], by rw [hrun]; exact hkeys, by rw [hrun], ?_, by rw [hrun]⟩
    intro s hs hc
    rw [hrun] at hc
    rw [show recordKeys
        ({ success := false, steps := mcpOutsFrom col [] pre,
           error := some { message := msg,
                           stepName := some failStep.name } } : WorkflowResult).steps =
        pre.map (fun s => s.name) from hkeys] at hc
    exact (hdisj.symm (List.mem_map_of_mem (fun s => s.name) hs)) hc
  · intro steps cfg env opts col exec providers wsteps sortedE pre post failE
      hnomcp hex hval hconv hsortE hsplit hallok hfail
    have hnames : (sortedE.map (fun es => es.stepName)).Nodup := (sortG_ok hsortE).2.1
    rw [hsplit, List.map_append] at hnames
    obtain ⟨hndpre, _, hdisj⟩ := List.nodup_append.mp hnames
    set failLog : StepExecutionLog :=
      { stepName := failE.stepName, success := false,
        errorType := (exec failE (engineOutsFrom exec [] pre)).errorType,
        errorMessage := (exec failE (engineOutsFrom exec [] pre)).errorMessage }
      with hfailLog
    set er : WorkflowRunResult :=
      { success := false, steps := engineLogsFrom exec [] pre ++ [failLog],
        finalOutput := none } with her
    have hloop := engineRunSteps_fail exec failE pre [] post hallok hfail
    have hengine : runWorkflowEngine wsteps exec =
        (.ok er, pre.map (fun s => s.stepName) ++ [failE.stepName]) := by
      unfold runWorkflowEngine
      simp only [hsortE, hsplit, hloop, her, hfailLog, Bool.false_eq_true, if_false]
    have hfilter := filter_ai_of_no_mcp hnomcp
    have hrun : runModel steps cfg env opts col exec =
        (convertResult er, pre.map (fun s => s.stepName) ++ [failE.stepName]) := by
      unfold runModel
      rw [hnomcp]
      have hpm : runPureModel steps cfg env opts exec =
          (.ok (convertResult er),
           pre.map (fun s => s.stepName) ++ [failE.stepName]) := by
        unfold runPureModel
        rw [hex]
        simp only [hval, hfilter, hconv, hengine]
      simp only [Bool.false_eq_true, if_false, hpm, catchResult]
    have hlognames : (engineLogsFrom exec [] pre).map (fun log => log.stepName) =
        pre.map (fun s => s.stepName) := engineLogsFrom_names exec pre []
    have hndlogs : (recordKeys [] ++ er.steps.map (fun log => log.stepName)).Nodup := by
      rw [her]
      simp only [List.map_append, hlognames]
      simp only [recordKeys, List.map_nil, List.nil_append, hfailLog, List.map_cons]
      refine List.nodup_append.mpr ⟨hndpre, by simp, ?_⟩
      intro x hx
      simp only [List.mem_singleton]
      intro hc
      subst hc
      exact hdisj hx (by simp)
    have hkeys : recordKeys (convertResult er).steps =
        ((engineLogsFrom exec [] pre).filter
          (fun log => truthyOpt log.output)).map (fun log => log.stepName) := by
      show recordKeys (convertOutputsFold er.steps []) = _
      rw [convertOutputsFold_keys _ [] hndlogs, her]
      simp only [List.filter_append]
      rw [show List.filter (fun log => truthyOpt log.output) [failLog] = [] from by
        rw [hfailLog]; rfl]
      simp [recordKeys]
    have hfind : er.steps.find? (fun log => !log.success) = some failLog := by
      rw [her]
      rw [find?_failed_append (fun log hlog => engineLogsFrom_success exec pre [] log hlog)]
      rw [List.find?_cons_of_pos _ (by simp [hfailLog])]
    refine ⟨by rw [hrun]; rfl, by rw [hrun]; exact hkeys, ?_, ?_, by rw [hrun]⟩
    · rw [hrun]
      show Option.map (fun e => e.stepName) (convertResult er).error = some (some failE.stepName)
      unfold convertResult
      simp only [hfind]
      simp [hfailLog]
    · intro es hes hc
      rw [hrun] at hc
      rw [show recordKeys (convertResult er, pre.map (fun s => s.stepName) ++
            [failE.stepName]).1.steps =
          ((engineLogsFrom exec [] pre).filter
            (fun log => truthyOpt log.output)).map (fun log => log.stepName)
          from hkeys] at hc
      obtain ⟨log, hlogmem, hlogname⟩ := List.mem_map.mp hc
      have hlogpre : log.stepName ∈ pre.map (fun s => s.stepName) := by
        rw [← hlognames]
        exact List.mem_map_of_mem (fun log => log.stepName)
          (List.mem_of_mem_filter hlogmem)
      rw [hlogname] at hlogpre
      exact (hdisj.symm (List.mem_map_of_mem (fun es => es.stepName) hes)) hlogpre

theorem C3_amended_failure_reports_first_failing_step_witness :
    ((runModel [exSA, exSB] exCfg (fun _ => none) none exCol exExec).1.success = false ∧
     recordKeys (runModel [exSA, exSB] exCfg (fun _ => none) none exCol exExec).1.steps =
       ["a"] ∧
     (runModel [exSA, exSB] exCfg (fun _ => none) none exCol exExec).1.error =
       some { message := "tool boom", stepName := some "b" } ∧
     (∀ s ∈ [exSB],
       s.name ∉ recordKeys
         (runModel [exSA, exSB] exCfg (fun _ => none) none exCol exExec).1.steps) ∧
     (runModel [exSA, exSB] exCfg (fun _ => none) none exCol exExec).2 = ["a", "b"]) ∧
    ((runModel [exAA, exAB] exCfg (fun _ => none) none exCol exExec).1.success = false ∧
     recordKeys (runModel [exAA, exAB] exCfg (fun _ => none) none exCol exExec).1.steps =
       ["a"] ∧
     (Option.map (fun e => e.stepName)
       (runModel [exAA, exAB] exCfg (fun _ => none) none exCol exExec).1.error) =
       some (some "b") ∧
     (∀ es ∈ [exEB],
       es.stepName ∉ recordKeys
         (runModel [exAA, exAB] exCfg (fun _ => none) none exCol exExec).1.steps) ∧
     (runModel [exAA, exAB] exCfg (fun _ => none) none exCol exExec).2 = ["a", "b"]) :=
  ⟨C3_amended_failure_reports_first_failing_step.1 [exSA, exSB] exCfg (fun _ => none)
      none exCol exExec [exSA, exSB] [exSA] [] exSB "tool boom" rfl rfl rfl rfl rfl,
   C3_amended_failure_reports_first_failing_step.2 [exAA, exAB] exCfg (fun _ => none)
      none exCol exExec ["openai"] [exEA, exEB] [exEA, exEB] [exEA] [] exEB
      rfl rfl rfl rfl rfl rfl rfl rfl⟩

/-- C4 counterexample: a successful single-step pure-AI run whose step
output is the empty string.  `success = true` and `finalOutput` is that
empty string, yet `result.steps` is empty — its key set is not the step
names of the graph, and the entry for the last (only) step in topological
order is `undefined`, not `finalOutput`. -/
theorem C4_counterexample :
    (runModel [exAA] exCfg (fun _ => none) none exCol exExecEmpty).1.success = true ∧
    (runModel [exAA] exCfg (fun _ => none) none exCol exExecEmpty).1.finalOutput =
      some (.vStr "") ∧
    recordKeys (runModel [exAA] exCfg (fun _ => none) none exCol exExecEmpty).1.steps =
      [] ∧
    recordGet (runModel [exAA] exCfg (fun _ => none) none exCol exExecEmpty).1.steps
      "a" ≠
      (runModel [exAA] exCfg (fun _ => none) none exCol exExecEmpty).1.finalOutput :=
  ⟨rfl, rfl, rfl, by decide⟩

/-- C4 amended: for every run in which all steps succeed, the result has
`success = true`, `result.steps` lists the steps in scheduler order (a
permutation of the graph's step names when those are distinct), and
`result.finalOutput` equals the `result.steps` entry of the last step in
the scheduler's topological order.  On the pure-AI path this holds provided
every logged step output is truthy; a falsy logged output is dropped from
`result.steps` by the result converter (the C4 counterexample). -/
theorem C4_amended_success_steps_and_final_output :
    (∀ (steps : List StepDefinition) (cfg : GlobalConfigModel) (env : Env)
       (opts : Option RunOptions) (col : Collaborators) (exec : AdapterExecutor)
       (sorted : List StepDefinition),
      hasMCPSteps steps = true →
      topologicalSort steps = .ok sorted →
      (steps.map (fun s => s.name)).Nodup →
      mcpAllOk col [] sorted = true →
      (runModel steps cfg env opts col exec).1.success = true ∧
      recordKeys (runModel steps cfg env opts col exec).1.steps =
        sorted.map (fun s => s.name) ∧
      (recordKeys (runModel steps cfg env opts col exec).1.steps).Perm
        (steps.map (fun s => s.name)) ∧
      (∀ last, sorted.getLast? = some last →
        (runModel steps cfg env opts col exec).1.finalOutput =
          recordGet (runModel steps cfg env opts col exec).1.steps last.name) ∧
      (runModel steps cfg env opts col exec).2 = sorted.map (fun s => s.name)) ∧
    (∀ (steps : List StepDefinition) (cfg : GlobalConfigModel) (env : Env)
       (opts : Option RunOptions) (col : Collaborators) (exec : AdapterExecutor)
       (providers : List String) (wsteps sortedE : List EngineStep),
      hasMCPSteps steps = false →
      extractProviders steps [] = .ok providers →
      validateProvidersConfigured providers cfg env opts = .ok () →
      convertSteps steps = .ok wsteps →
      topologicalSortG (fun es => es.stepName) (fun es => es.dependsOn) wsteps =
        .ok sortedE →
      (steps.map (fun s => s.name)).Nodup →
      engineAllOk exec [] sortedE = true →
      (∀ log ∈ engineLogsFrom exec [] sortedE, truthyOpt log.output = true) →
      (runModel steps cfg env opts col exec).1.success = true ∧
      recordKeys (runModel steps cfg env opts col exec).1.steps =
        sortedE.map (fun s => s.stepName) ∧
      (recordKeys (runModel steps cfg env opts col exec).1.steps).Perm
        (steps.map (fun s => s.name)) ∧
      (∀ last, sortedE.getLast? = some last →
        (runModel steps cfg env opts col exec).1.finalOutput =
          recordGet (runModel steps cfg env opts col exec).1.steps last.stepName) ∧
      (runModel steps cfg env opts col exec).2 =
        sortedE.map (fun s => s.stepName)) := by
  constructor
  · intro steps cfg env opts col exec sorted hmcp hsort hnodup hallok
    have hnames : (sorted.map (fun s => s.name)).Nodup := (sortG_ok hsort).2.1
    have hloop := runWithMCPLoop_all_ok col sorted [] hallok
    have hmodel : runWithMCPModel steps col =
        (.ok { success := true, steps := mcpOutsFrom col [] sorted,
               finalOutput :=
                 match sorted.getLast? with
                 | some lastStep => recordGet (mcpOutsFrom col [] sorted) lastStep.name
                 | none => none },
         sorted.map (fun s => s.name)) := by
      unfold runWithMCPModel
      simp only [show topologicalSort steps = .ok sorted from hsort, hloop]
    have hrun : runModel steps cfg env opts col exec =
        ({ success := true, steps := mcpOutsFrom col [] sorted,
           finalOutput :=
             match sorted.getLast? with
             | some lastStep => recordGet (mcpOutsFrom col [] sorted) lastStep.name
             | none => none },
         sorted.map (fun s => s.name)) := by
      unfold runModel
      rw [hmcp]
      simp only [if_true, hmodel, Except.mapError, catchResult]
    have hkeys : recordKeys (mcpOutsFrom col [] sorted) =
        sorted.map (fun s => s.name) := by
      have h := mcpOutsFrom_keys col sorted [] hallok (by simpa [recordKeys] using hnames)
      simpa [recordKeys] using h
    refine ⟨by rw [hrun], by rw [hrun]; exact hkeys, ?_, ?_, by rw [hrun]⟩
    · rw [hrun]
      show recordKeys (mcpOutsFrom col [] sorted) |>.Perm (steps.map (fun s => s.name))
      rw [hkeys]
      exact (sortG_perm hnodup hsort).map (fun s => s.name)
    · intro last hlast
      rw [hrun]
      show (match sorted.getLast? with
            | some lastStep => recordGet (mcpOutsFrom col [] sorted) lastStep.name
            | none => none) = recordGet (mcpOutsFrom col [] sorted) last.name
      simp only [hlast]
  · intro steps cfg env opts col exec providers wsteps sortedE
      hnomcp hex hval hconv hsortE hnodup hallok htruthy
    have hnames : (sortedE.map (fun es => es.stepName)).Nodup := (sortG_ok hsortE).2.1
    have hloop := engineRunSteps_all_ok exec sortedE [] hallok
    set er : WorkflowRunResult :=
      { success := true, steps := engineLogsFrom exec [] sortedE,
        finalOutput :=
          (engineLogsFrom exec [] sortedE).getLast?.bind (fun log => log.output) }
      with her
    have hengine : runWorkflowEngine wsteps exec =
        (.ok er, sortedE.map (fun s => s.stepName)) := by
      unfold runWorkflowEngine
      simp only [hsortE, hloop, her, if_true]
    have hfilter := filter_ai_of_no_mcp hnomcp
    have hrun : runModel steps cfg env opts col exec =
        (convertResult er, sortedE.map (fun s => s.stepName)) := by
      unfold runModel
      rw [hnomcp]
      have hpm : runPureModel steps cfg env opts exec =
          (.ok (convertResult er), sortedE.map (fun s => s.stepName)) := by
        unfold runPureModel
        rw [hex]
        simp only [hval, hfilter, hconv, hengine]
      simp only [Bool.false_eq_true, if_false, hpm, catchResult]
    have hlognames : (engineLogsFrom exec [] sortedE).map (fun log => log.stepName) =
        sortedE.map (fun s => s.stepName) := engineLogsFrom_names exec sortedE []
    have hndlogs : (recordKeys [] ++ er.steps.map (fun log => log.stepName)).Nodup := by
      rw [her]
      simpa [recordKeys, hlognames] using hnames
    have hkeys : recordKeys (convertResult er).steps =
        sortedE.map (fun s => s.stepName) := by
      show recordKeys (convertOutputsFold er.steps []) = _
      rw [convertOutputsFold_keys _ [] hndlogs, her]
      rw [List.filter_eq_self.mpr (fun log hlog => htruthy log hlog), hlognames]
      simp [recordKeys]
    refine ⟨by rw [hrun]; rfl, by rw [hrun]; exact hkeys, ?_, ?_, by rw [hrun]⟩
    · rw [hrun]
      show recordKeys (convertResult er).steps |>.Perm (steps.map (fun s => s.name))
      rw [hkeys]
      have hwnames : wsteps.map (fun es => es.stepName) = steps.map (fun s => s.name) :=
        convertSteps_names hconv
      have hperm : sortedE.Perm wsteps := sortG_perm (by rw [hwnames]; exact hnodup) hsortE
      have := hperm.map (fun es => es.stepName)
      rw [hwnames] at this
      exact this
    · intro last hlast
      rw [hrun]
      show er.finalOutput = recordGet (convertOutputsFold er.steps []) last.stepName
      have hmapLast : Option.map (fun log => log.stepName)
          (engineLogsFrom exec [] sortedE).getLast? = some last.stepName := by
        rw [← List.getLast?_map, hlognames, List.getLast?_map, hlast]
        rfl
      cases hgl : (engineLogsFrom exec [] sortedE).getLast? with
      | none => rw [hgl] at hmapLast; simp at hmapLast
      | some lastLog =>
        rw [hgl] at hmapLast
        have hname : lastLog.stepName = last.stepName := by simpa using hmapLast
        have hmem : lastLog ∈ engineLogsFrom exec [] sortedE := by
          obtain ⟨h, heq⟩ := List.mem_getLast?_eq_getLast
            (show lastLog ∈ (engineLogsFrom exec [] sortedE).getLast? from by
              rw [hgl]; rfl)
          rw [heq]
          exact List.getLast_mem h
        have hfo : er.finalOutput = lastLog.output := by
          rw [her]
          show (engineLogsFrom exec [] sortedE).getLast?.bind (fun log => log.output) = _
          rw [hgl]
          rfl
        rw [hfo, ← hname]
        exact (convertOutputsFold_get er.steps [] hndlogs lastLog
          (by rw [her]; exact hmem) (htruthy lastLog hmem)).symm

theorem C4_amended_success_steps_and_final_output_witness :
    ((runModel [exSA] exCfg (fun _ => none) none exCol exExec).1.success = true ∧
     recordKeys (runModel [exSA] exCfg (fun _ => none) none exCol exExec).1.steps =
       ["a"] ∧
     (recordKeys (runModel [exSA] exCfg (fun _ => none) none exCol exExec).1.steps).Perm
       ["a"] ∧
     (∀ last, ([exSA] : List StepDefinition).getLast? = some last →
       (runModel [exSA] exCfg (fun _ => none) none exCol exExec).1.finalOutput =
         recordGet (runModel [exSA] exCfg (fun _ => none) none exCol exExec).1.steps
           last.name) ∧
     (runModel [exSA] exCfg (fun _ => none) none exCol exExec).2 = ["a"]) ∧
    ((runModel [exAA] exCfg (fun _ => none) none exCol exExec).1.success = true ∧
     recordKeys (runModel [exAA] exCfg (fun _ => none) none exCol exExec).1.steps =
       ["a"] ∧
     (recordKeys (runModel [exAA] exCfg (fun _ => none) none exCol exExec).1.steps).Perm
       ["a"] ∧
     (∀ last, ([exEA] : List EngineStep).getLast? = some last →
       (runModel [exAA] exCfg (fun _ => none) none exCol exExec).1.finalOutput =
         recordGet (runModel [exAA] exCfg (fun _ => none) none exCol exExec).1.steps
           last.stepName) ∧
     (runModel [exAA] exCfg (fun _ => none) none exCol exExec).2 = ["a"]) :=
  ⟨C4_amended_success_steps_and_final_output.1 [exSA] exCfg (fun _ => none) none
      exCol exExec [exSA] rfl rfl (by decide) rfl,
   C4_amended_success_steps_and_final_output.2 [exAA] exCfg (fun _ => none) none
      exCol exExec ["openai"] [exEA] [exEA] rfl rfl rfl rfl rfl (by decide) rfl
      (by decide)⟩

end Claims
